import Mathlib

/-!
Verification development for beancount-sort (`src/main.rs`).

Shallow embedding conventions:
* Rust `String` / `&str` values are modelled as `List Char` (called `Str` below);
  `BufRead::lines` output is modelled as a `List Str` whose elements contain no
  newline character.
* `chrono::naive::NaiveDate` is modelled by the `Date` structure; its calendar
  validation (`NaiveDate::parse_from_str` with format `%Y-%m-%d`) is modelled by
  `validDate` using the proleptic Gregorian rules chrono implements.
* The regular expressions of `get_line_type` and `construct_dated_entry` are
  modelled by explicit character-by-character functions; `\d` and `\w` are read
  as their ASCII meaning.
* Fallible Rust functions returning `anyhow::Result` are modelled with
  `Except Err`, with one `Err` constructor per distinct error site.
* `Vec::push` / `Vec::pop` on `ledger_file.entries` operate on the end of the
  vector, so the assembler's accumulator is kept in reverse order (most recent
  entry first) and reversed when `find_entries` returns.
* `Vec::sort_by_key` is a stable sort; it is modelled by a stable insertion
  sort `sortByDate`.
-/

namespace BeancountSort

/-- Text is modelled as a list of characters (Rust `String` / `&str`). -/
abbrev Str := List Char

/-- Calendar date (year, month, day), modelling `chrono::naive::NaiveDate`. -/
structure Date where
  y : Nat
  m : Nat
  d : Nat
deriving DecidableEq

/-- Chronological strict order on dates, the `Ord` behaviour of `NaiveDate`
used by `sort_by_key(|e| e.date)`. -/
def Date.ltb (a b : Date) : Bool :=
  decide (a.y < b.y ∨ (a.y = b.y ∧ (a.m < b.m ∨ (a.m = b.m ∧ a.d < b.d))))

/-- Chronological non-strict order on dates, as a proposition. -/
def DateLe (a b : Date) : Prop :=
  a.y < b.y ∨ (a.y = b.y ∧ (a.m < b.m ∨ (a.m = b.m ∧ a.d ≤ b.d)))

/-- All possible types of entries in a beancount file (`enum EntryType`). -/
inductive EntryType where
  | Account
  | Option
  | Commodity
  | OtherEntry
  | Price
  | Transaction
  | Indented
  | Section
  | Header
  | Comment
deriving DecidableEq

/-- One entry in a beancount file (`struct Entry`). -/
structure Entry where
  content : Str
  date : Date
  entry_type : EntryType
deriving DecidableEq

/-- The type of a line, returned by `get_line_type` (`enum Line`). -/
inductive Line where
  | Date (d : Date)
  | Option
  | Comment
  | Indent
  | Empty
  | Section
deriving DecidableEq

/-- Errors of the core pipeline; one constructor per `anyhow` error site. -/
inductive Err where
  | DateParseError
  | UnclassifiableLine (n : Nat) (line : Str)
  | MissingDirective
  | InsufficientLines
  | MisplacedIndent (n : Nat) (content : Option Str)
  | UnknownSection (s : Str)
deriving DecidableEq

deriving instance DecidableEq for Except

/-- The sentinel date `NaiveDate::from_ymd(1990, 1, 1)` given to undated entries. -/
def sentinel : Date := ⟨1990, 1, 1⟩

/-- ASCII reading of the regex character class `\d`. -/
def isDigit (c : Char) : Bool := c.isDigit

/-- ASCII reading of the regex character class `\w`. -/
def isWordChar (c : Char) : Bool := c.isAlphanum || c == '_'

/-- A list of character tests applied positionally to the start of a string;
used to model an anchored regex over fixed-width character classes. -/
def matchesShape : List (Char → Bool) → Str → Bool
  | [], _ => true
  | _ :: _, [] => false
  | p :: ps, c :: cs => p c && matchesShape ps cs

/-- The ten positional character classes of `^\d{4}-[01]\d-[0-3]\d`. -/
def dateClasses : List (Char → Bool) :=
  [isDigit, isDigit, isDigit, isDigit,
   fun c => c == '-',
   fun c => c == '0' || c == '1',
   isDigit,
   fun c => c == '-',
   fun c => c == '0' || c == '1' || c == '2' || c == '3',
   isDigit]

/-- Whether a line starts with a date-shaped token (`re_date.is_match`). -/
def dateShape (l : Str) : Bool := matchesShape dateClasses l

/-- Numeric value of an ASCII digit character. -/
def digitVal (c : Char) : Nat := c.toNat - '0'.toNat

/-- Two-digit number from two digit characters. -/
def num2 (a b : Char) : Nat := 10 * digitVal a + digitVal b

/-- Four-digit number from four digit characters. -/
def num4 (a b c d : Char) : Nat :=
  1000 * digitVal a + 100 * digitVal b + 10 * digitVal c + digitVal d

/-- Proleptic Gregorian leap-year rule, as implemented by chrono. -/
def isLeap (y : Nat) : Bool := decide ((y % 4 = 0 ∧ y % 100 ≠ 0) ∨ y % 400 = 0)

/-- Number of days of a month in a given year. -/
def daysInMonth (y m : Nat) : Nat :=
  if m = 2 then (if isLeap y then 29 else 28)
  else if m = 4 ∨ m = 6 ∨ m = 9 ∨ m = 11 then 30
  else 31

/-- Calendar validity as checked by `NaiveDate::parse_from_str`. -/
def validDate (y m d : Nat) : Bool :=
  decide (1 ≤ m ∧ m ≤ 12 ∧ 1 ≤ d ∧ d ≤ daysInMonth y m)

/-- Parse of the captured ten-character date token: the result of
`NaiveDate::parse_from_str(date, "%Y-%m-%d")`, `none` on calendar failure.
Only invoked on lines already known to satisfy `dateShape`. -/
def parseDateToken (l : Str) : Option Date :=
  match l with
  | y1 :: y2 :: y3 :: y4 :: _ :: m1 :: m2 :: _ :: d1 :: d2 :: _ =>
    let y := num4 y1 y2 y3 y4
    let m := num2 m1 m2
    let d := num2 d1 d2
    if validDate y m d then some ⟨y, m, d⟩ else none
  | _ => none

/-- The section-heading marker `format!("^;{}", DECO.repeat(NDECO))` with
`DECO = "€"` and `NDECO = 4`. -/
def sectionMarker : Str := ';' :: List.replicate 4 '€'

/-- Whether a line starts with one or more semicolons (`re_comment`). -/
def commentMatch : Str → Bool
  | [] => false
  | c :: _ => c == ';'

/-- After the leading spaces of an indent candidate: more spaces are consumed,
and the first non-space character must be non-whitespace (`\S`). -/
def restNonWs : Str → Bool
  | [] => false
  | c :: rest => if c == ' ' then restNonWs rest else !c.isWhitespace

/-- Whether `(?m)(^ +)\S` matches a single newline-free line: one or more
leading spaces directly followed by a non-whitespace character. -/
def indentMatch : Str → Bool
  | [] => false
  | c :: rest => c == ' ' && restNonWs rest

/-- Identifies the `Line` type of a given string (`get_line_type`).
The rule order is exactly the source's `if` chain: date, option, section
(tested before comment), comment, indent, empty; otherwise the line is
unclassifiable. -/
def get_line_type (line : Str) (n : Nat) : Except Err Line :=
  if dateShape line then
    match parseDateToken line with
    | some d => .ok (.Date d)
    | none => .error .DateParseError
  else if ("option".data).isPrefixOf line then .ok .Option
  else if sectionMarker.isPrefixOf line then .ok .Section
  else if commentMatch line then .ok .Comment
  else if indentMatch line then .ok .Indent
  else if line = ([] : Str) then .ok .Empty
  else .error (.UnclassifiableLine n line)

/-- The capture of `^\d{4}-[01]\d-[0-3]\d (\w+|\*|!)`: the date shape, a single
space, then either a maximal run of word characters or a lone `*` or `!`. -/
def keywordFrom : Str → Option Str
  | sp :: c :: cs =>
    if sp = ' ' then
      if isWordChar c then some ((c :: cs).takeWhile isWordChar)
      else if c = '*' then some ['*']
      else if c = '!' then some ['!']
      else none
    else none
  | _ => none

def keywordAt (l : Str) : Option Str :=
  if dateShape l then keywordFrom (l.drop 10) else none

/-- Creates an `Entry` from a given string and a date (`construct_dated_entry`). -/
def construct_dated_entry (line : Str) (date : Date) : Except Err Entry :=
  match keywordAt line with
  | none => .error .MissingDirective
  | some kw =>
    if kw = ['*'] ∨ kw = ['!'] then .ok ⟨line, date, .Transaction⟩
    else if kw = "commodity".data then .ok ⟨line, date, .Commodity⟩
    else if kw = "price".data then .ok ⟨line, date, .Price⟩
    else if kw = "open".data then .ok ⟨line, date, .Account⟩
    else .ok ⟨line, date, .OtherEntry⟩

/-- Candidate entry built from one classified line in the per-line `match` of
`find_entries`; `none` for the `continue` arms (`Section` and `Empty`). -/
def mkCandidate (line : Str) (lt : Line) : Except Err (Option Entry) :=
  match lt with
  | .Date d => (construct_dated_entry line d).map some
  | .Option => .ok (some ⟨line, sentinel, .Option⟩)
  | .Section => .ok none
  | .Comment => .ok (some ⟨line, sentinel, .Comment⟩)
  | .Indent => .ok (some ⟨line, sentinel, .Indented⟩)
  | .Empty => .ok none

/-- Comment absorption block of `find_entries`: if the last stored entry is a
comment, pop it and prepend its content plus a newline to the candidate.
The accumulator is most-recent-first, so the vector's last entry is the head. -/
def absorbComment (acc : List Entry) (e : Entry) : Entry × List Entry :=
  match acc with
  | c :: rest =>
    if c.entry_type = .Comment then
      ({ e with content := c.content ++ '\n' :: e.content }, rest)
    else (e, acc)
  | [] => (e, acc)

/-- Indent-merge / push block of `find_entries`: an `Indented` candidate must
merge into a popped `Transaction` or `Commodity` entry; any other candidate is
pushed. `n` is the 1-based line number used in the error. -/
def pushOrMerge (acc : List Entry) (n : Nat) (e : Entry) : Except Err (List Entry) :=
  match e.entry_type with
  | .Indented =>
    match acc with
    | [] => .error (.MisplacedIndent n none)
    | last :: rest =>
      match last.entry_type with
      | .Transaction =>
        .ok (⟨last.content ++ '\n' :: e.content, last.date, last.entry_type⟩ :: rest)
      | .Commodity =>
        .ok (⟨last.content ++ '\n' :: e.content, last.date, last.entry_type⟩ :: rest)
      | _ => .error (.MisplacedIndent n (some e.content))
  | _ => .ok (e :: acc)

/-- One iteration of the per-line loop of `find_entries`. -/
def stepLine (acc : List Entry) (n : Nat) (line : Str) : Except Err (List Entry) := do
  let lt ← get_line_type line n
  match ← mkCandidate line lt with
  | none => pure acc
  | some e =>
    let p := absorbComment acc e
    pushOrMerge p.2 n p.1

/-- The per-line loop of `find_entries` over the unskipped lines; `n0` is the
number of lines already consumed, so the next line has number `n0 + 1`. -/
def find_entries_loop (acc : List Entry) (n0 : Nat) : List Str → Except Err (List Entry)
  | [] => .ok acc
  | l :: ls => do
    let acc' ← stepLine acc (n0 + 1) l
    find_entries_loop acc' (n0 + 1) ls

/-- The entry assembler `find_entries`: the first `n_skip` lines become verbatim
`Header` entries (failing if the file is shorter), then every further line is
classified and folded into the entry list. The result is returned in file
order (the reversed accumulator). -/
def find_entries (lines : List Str) (n_skip : Nat) : Except Err (List Entry) :=
  if lines.length < n_skip then .error .InsufficientLines
  else
    (find_entries_loop
      (((lines.take n_skip).map (fun l => Entry.mk l sentinel .Header)).reverse)
      n_skip (lines.drop n_skip)).map List.reverse

/-- The fixed section table `SECTIONS`. -/
def SECTIONS : List Str :=
  ["Header".data, "Options".data, "Accounts".data, "Commodities".data,
   "Other Entries".data, "Prices".data, "Transactions".data]

/-- Maps a section name to the entry type stored in it (`get_section_variant`). -/
def get_section_variant (s : Str) : Except Err EntryType :=
  if s = "Accounts".data then .ok .Account
  else if s = "Options".data then .ok .Option
  else if s = "Commodities".data then .ok .Commodity
  else if s = "Other Entries".data then .ok .OtherEntry
  else if s = "Prices".data then .ok .Price
  else if s = "Transactions".data then .ok .Transaction
  else if s = "Header".data then .ok .Header
  else .error (.UnknownSection s)

/-- The decoration run `DECO.repeat(NDECO)` with `DECO = "€"`, `NDECO = 4`. -/
def deco : Str := List.replicate 4 '€'

/-- The three-line decorative heading string built for a section; note that
`section.len()` in the source is the byte length of the ASCII section name,
i.e. its character count. -/
def sectionHeading (s : Str) : Str :=
  ';' :: (deco ++ List.replicate s.length '€' ++ deco) ++
  '\n' :: ';' :: (deco ++ s ++ deco) ++
  '\n' :: ';' :: (deco ++ List.replicate s.length '€' ++ deco)

/-- The synthesized heading entry for a section. -/
def sectionEntry (s : Str) : Entry := ⟨sectionHeading s, sentinel, .Section⟩

/-- Stable insertion of an entry into a date-sorted list: the entry goes in
front of the first element whose date is not strictly smaller. -/
def insertByDate (e : Entry) : List Entry → List Entry
  | [] => [e]
  | f :: fs => if Date.ltb f.date e.date then f :: insertByDate e fs else e :: f :: fs

/-- Stable sort by date, modelling `entries.sort_by_key(|e| e.date)`. -/
def sortByDate : List Entry → List Entry
  | [] => []
  | e :: es => insertByDate e (sortByDate es)

/-- One section's contribution to the sorter output: the heading entry (absent
for "Header") followed by the date-sorted entries of the section's type. -/
def sectionBlock (es : List Entry) (s : Str) : Except Err (List Entry) := do
  let v ← get_section_variant s
  let filtered := es.filter (fun e => decide (e.entry_type = v))
  if s = "Header".data then pure filtered else pure (sectionEntry s :: filtered)

/-- The `for section in SECTIONS` loop of `sort_entries`, appending each
section's block in order. -/
def sectionFold (es : List Entry) : List Str → Except Err (List Entry)
  | [] => .ok []
  | s :: ss => do
    let b ← sectionBlock es s
    let r ← sectionFold es ss
    pure (b ++ r)

/-- Sorts a list of entries by their date and their section (`sort_entries`). -/
def sort_entries (entries : List Entry) : Except Err (List Entry) :=
  sectionFold (sortByDate entries) SECTIONS

/-- Splits a string at newline characters, as reading back the written file
with `BufRead::lines` does. -/
def splitNl : Str → List Str
  | [] => [[]]
  | c :: rest =>
    if c = '\n' then [] :: splitNl rest
    else
      match splitNl rest with
      | h :: t => (c :: h) :: t
      | [] => [[c]]

/-- Joins lines with single newline separators. -/
def joinNl : List Str → Str
  | [] => []
  | [l] => l
  | l :: ls => l ++ '\n' :: joinNl ls

/-- The lines of the written output file: `write_ledger_file` prints each
entry's content followed by a newline (with `spaces = false`), so reading the
file back yields each content's newline-split lines, concatenated. -/
def render (es : List Entry) : List Str := (es.map (fun e => splitNl e.content)).flatten

/-- The full core pipeline: assemble, then sort. -/
def pipeline (lines : List Str) (n_skip : Nat) : Except Err (List Entry) :=
  (find_entries lines n_skip).bind sort_entries

/-! ### Basic lemmas about the `Except` monad and the date order -/

@[simp] theorem ebind_ok (a : α) (f : α → Except Err β) : (Except.ok a >>= f) = f a := rfl

@[simp] theorem ebindm_ok (a : α) (f : α → Except Err β) :
    (Except.ok a : Except Err α).bind f = f a := rfl

@[simp] theorem ebindm_error (e : Err) (f : α → Except Err β) :
    (Except.error e : Except Err α).bind f = Except.error e := rfl

@[simp] theorem ebind_error (e : Err) (f : α → Except Err β) :
    ((Except.error e : Except Err α) >>= f) = Except.error e := rfl

@[simp] theorem epure_eq_ok (a : α) : (pure a : Except Err α) = Except.ok a := rfl

@[simp] theorem emap_ok (a : α) (f : α → β) :
    (Except.ok a : Except Err α).map f = Except.ok (f a) := rfl

@[simp] theorem emap_error (e : Err) (f : α → β) :
    (Except.error e : Except Err α).map f = Except.error e := rfl

theorem DateLe.rfl (a : Date) : DateLe a a := by unfold DateLe; omega

theorem DateLe.trans {a b c : Date} (h1 : DateLe a b) (h2 : DateLe b c) : DateLe a c := by
  unfold DateLe at *; omega

theorem dateLe_of_ltb {a b : Date} (h : Date.ltb a b = true) : DateLe a b := by
  simp only [Date.ltb, decide_eq_true_eq] at h; unfold DateLe; omega

theorem dateLe_of_not_ltb {a b : Date} (h : Date.ltb a b = false) : DateLe b a := by
  simp only [Date.ltb, decide_eq_false_iff_not] at h; unfold DateLe; omega

theorem ltb_eq_false_of_dateLe {a b : Date} (h : DateLe a b) : Date.ltb b a = false := by
  simp only [Date.ltb, decide_eq_false_iff_not]; unfold DateLe at h; omega

/-- Date comparison of entries, the order `sort_by_key(|e| e.date)` sorts by. -/
def EntLe (a b : Entry) : Prop := DateLe a.date b.date

/-! ### The stable sort `sortByDate` -/

theorem mem_insertByDate {x e : Entry} {l : List Entry} :
    x ∈ insertByDate e l ↔ x = e ∨ x ∈ l := by
  induction l with
  | nil => simp [insertByDate]
  | cons f fs ih =>
    by_cases h : Date.ltb f.date e.date = true
    · simp only [insertByDate, h, if_pos, List.mem_cons, ih]
      tauto
    · simp only [insertByDate, if_neg h, List.mem_cons]

theorem insertByDate_pairwise {e : Entry} {l : List Entry} (h : l.Pairwise EntLe) :
    (insertByDate e l).Pairwise EntLe := by
  induction l with
  | nil => simp [insertByDate]
  | cons f fs ih =>
    rcases List.pairwise_cons.mp h with ⟨hf, hfs⟩
    by_cases hlt : Date.ltb f.date e.date = true
    · simp only [insertByDate, hlt, if_pos]
      refine List.pairwise_cons.mpr ⟨?_, ih hfs⟩
      intro x hx
      rcases mem_insertByDate.mp hx with rfl | hx
      · exact dateLe_of_ltb hlt
      · exact hf x hx
    · simp only [insertByDate, if_neg hlt]
      refine List.pairwise_cons.mpr ⟨?_, h⟩
      intro x hx
      have hef : DateLe e.date f.date :=
        dateLe_of_not_ltb (by simpa using hlt)
      rcases List.mem_cons.mp hx with rfl | hx
      · exact hef
      · exact hef.trans (hf x hx)

theorem sortByDate_pairwise (l : List Entry) : (sortByDate l).Pairwise EntLe := by
  induction l with
  | nil => simp [sortByDate]
  | cons e es ih => exact insertByDate_pairwise ih

theorem insertByDate_perm (e : Entry) (l : List Entry) :
    (insertByDate e l).Perm (e :: l) := by
  induction l with
  | nil => simp [insertByDate]
  | cons f fs ih =>
    by_cases hlt : Date.ltb f.date e.date = true
    · simp only [insertByDate, hlt, if_pos]
      exact (ih.cons f).trans (List.Perm.swap e f fs)
    · simp [insertByDate, if_neg hlt]

theorem sortByDate_perm (l : List Entry) : (sortByDate l).Perm l := by
  induction l with
  | nil => simp [sortByDate]
  | cons e es ih =>
    exact (insertByDate_perm e (sortByDate es)).trans (ih.cons e)

theorem sortByDate_of_pairwise {l : List Entry} (h : l.Pairwise EntLe) :
    sortByDate l = l := by
  induction l with
  | nil => rfl
  | cons e es ih =>
    rcases List.pairwise_cons.mp h with ⟨he, hes⟩
    show insertByDate e (sortByDate es) = e :: es
    rw [ih hes]
    cases es with
    | nil => rfl
    | cons f fs =>
      have : Date.ltb f.date e.date = false :=
        ltb_eq_false_of_dateLe (he f (by simp))
      simp [insertByDate, this]

theorem insertByDate_eq_cons {e : Entry} {l : List Entry}
    (h : ∀ x ∈ l, Date.ltb x.date e.date = false) : insertByDate e l = e :: l := by
  cases l with
  | nil => rfl
  | cons g gs => simp [insertByDate, h g (by simp)]

theorem filter_insertByDate {e : Entry} {l : List Entry} (h : l.Pairwise EntLe)
    (p : Entry → Bool) :
    (insertByDate e l).filter p =
      if p e then insertByDate e (l.filter p) else l.filter p := by
  induction l with
  | nil => cases hpe : p e <;> simp [insertByDate, List.filter_cons, hpe]
  | cons f fs ih =>
    rcases List.pairwise_cons.mp h with ⟨hf, hfs⟩
    by_cases hlt : Date.ltb f.date e.date = true
    · rw [insertByDate, if_pos hlt]
      rw [List.filter_cons, List.filter_cons (x := f)]
      cases hpf : p f
      · simp [ih hfs]
      · simp only [if_pos rfl]
        rw [ih hfs]
        cases hpe : p e
        · simp
        · simp [insertByDate, hlt]
    · have hef : DateLe e.date f.date := dateLe_of_not_ltb (by simpa using hlt)
      rw [insertByDate, if_neg hlt]
      rw [List.filter_cons (x := e)]
      cases hpe : p e
      · simp
      · simp only [if_pos rfl]
        refine (insertByDate_eq_cons ?_).symm
        intro x hx
        have hxm := List.mem_filter.mp hx
        have hfx : DateLe f.date x.date := by
          rcases List.mem_cons.mp hxm.1 with rfl | hxg
          · exact DateLe.rfl _
          · exact hf x hxg
        exact ltb_eq_false_of_dateLe (hef.trans hfx)

theorem sortByDate_filter (l : List Entry) (p : Entry → Bool) :
    (sortByDate l).filter p = sortByDate (l.filter p) := by
  induction l with
  | nil => rfl
  | cons e es ih =>
    show (insertByDate e (sortByDate es)).filter p = sortByDate ((e :: es).filter p)
    rw [filter_insertByDate (sortByDate_pairwise es) p, ih]
    cases hpe : p e <;> simp [List.filter_cons, hpe, sortByDate]

/-! ### The shape of the sorter output -/

/-- Entries of a given type, in order (`mem::discriminant` filtering). -/
def kindFilter (k : EntryType) (es : List Entry) : List Entry :=
  es.filter (fun e => decide (e.entry_type = k))

/-- The section blocks in the fixed order, each bucket holding the entries of
that section's type drawn from `S` in order. -/
def sorterOut (S : List Entry) : List Entry :=
  kindFilter .Header S ++
  sectionEntry "Options".data :: kindFilter .Option S ++
  sectionEntry "Accounts".data :: kindFilter .Account S ++
  sectionEntry "Commodities".data :: kindFilter .Commodity S ++
  sectionEntry "Other Entries".data :: kindFilter .OtherEntry S ++
  sectionEntry "Prices".data :: kindFilter .Price S ++
  sectionEntry "Transactions".data :: kindFilter .Transaction S

/-- Computed form of `sort_entries`: the section blocks in the fixed order,
each bucket being the date-sorted entries of that section's type. -/
theorem sort_entries_eq (es : List Entry) :
    sort_entries es = .ok (sorterOut (sortByDate es)) := by
  simp [sort_entries, sectionFold, SECTIONS, sectionBlock, get_section_variant, kindFilter,
    sorterOut]

/-- The seven section kinds, in the fixed section order. -/
def sevenKinds : List EntryType :=
  [.Header, .Option, .Account, .Commodity, .OtherEntry, .Price, .Transaction]

theorem kindFilter_append (k : EntryType) (a b : List Entry) :
    kindFilter k (a ++ b) = kindFilter k a ++ kindFilter k b :=
  List.filter_append a b

theorem kindFilter_section_cons {k : EntryType} (h : k ≠ .Section) (s : Str)
    (l : List Entry) : kindFilter k (sectionEntry s :: l) = kindFilter k l := by
  simp [kindFilter, sectionEntry, List.filter_cons, Ne.symm h]

theorem kindFilter_self (k : EntryType) (l : List Entry) :
    kindFilter k (kindFilter k l) = kindFilter k l := by
  simp [kindFilter, List.filter_filter]

theorem kindFilter_ne {j k : EntryType} (h : j ≠ k) (l : List Entry) :
    kindFilter k (kindFilter j l) = [] := by
  rw [kindFilter, kindFilter, List.filter_filter, List.filter_eq_nil_iff]
  intro a _
  simp only [Bool.and_eq_true, decide_eq_true_eq]
  rintro ⟨rfl, rfl⟩
  exact h rfl

theorem kindFilter_mem_type {k : EntryType} {e : Entry} {l : List Entry}
    (h : e ∈ kindFilter k l) : e.entry_type = k := by
  simpa [kindFilter] using (List.mem_filter.mp h).2

theorem kindFilter_sorterOut {k : EntryType} (hk : k ∈ sevenKinds) (S : List Entry) :
    kindFilter k (sorterOut S) = kindFilter k S := by
  fin_cases hk <;>
    simp [sorterOut, kindFilter_append, kindFilter_section_cons, kindFilter_self,
      kindFilter_ne]

theorem pairwise_entLe_of_const_date {l : List Entry} {D : Date}
    (h : ∀ x ∈ l, x.date = D) : l.Pairwise EntLe := by
  induction l with
  | nil => simp
  | cons a as ih =>
    refine List.pairwise_cons.mpr ⟨?_, ih (fun x hx => h x (by simp [hx]))⟩
    intro b hb
    show DateLe a.date b.date
    rw [h a (by simp), h b (by simp [hb])]
    exact DateLe.rfl D

/-- C1: For every assembled entry list, the Section Sorter's output consists of
the Header bucket followed by the decorated headings for Options, Accounts,
Commodities, Other Entries, Prices and Transactions, each followed by the
bucket of entries of exactly that kind; each bucket is a permutation of the
input's entries of that kind (every such entry appears exactly once, inside
its section), is in ascending date order, and preserves the input's relative
order among entries sharing a date (stability); no Comment-kind, Section-kind
or Indented-kind entry appears among the bucketed entries. -/
theorem sort_entries_buckets (es : List Entry) :
    ∃ out, sort_entries es = .ok out ∧
      out = kindFilter .Header out ++
        sectionEntry "Options".data :: kindFilter .Option out ++
        sectionEntry "Accounts".data :: kindFilter .Account out ++
        sectionEntry "Commodities".data :: kindFilter .Commodity out ++
        sectionEntry "Other Entries".data :: kindFilter .OtherEntry out ++
        sectionEntry "Prices".data :: kindFilter .Price out ++
        sectionEntry "Transactions".data :: kindFilter .Transaction out ∧
      (∀ k ∈ sevenKinds, (kindFilter k out).Perm (kindFilter k es)) ∧
      (∀ k ∈ sevenKinds, (kindFilter k out).Pairwise EntLe) ∧
      (∀ k ∈ sevenKinds, ∀ D : Date,
        (kindFilter k out).filter (fun e => decide (e.date = D)) =
          (kindFilter k es).filter (fun e => decide (e.date = D))) ∧
      (∀ e ∈ out, e.entry_type ≠ .Comment ∧ e.entry_type ≠ .Indented) := by
  refine ⟨sorterOut (sortByDate es), sort_entries_eq es, ?_, ?_, ?_, ?_, ?_⟩
  · conv_lhs => rw [sorterOut]
    rw [kindFilter_sorterOut (by simp [sevenKinds]), kindFilter_sorterOut (by simp [sevenKinds]),
      kindFilter_sorterOut (by simp [sevenKinds]), kindFilter_sorterOut (by simp [sevenKinds]),
      kindFilter_sorterOut (by simp [sevenKinds]), kindFilter_sorterOut (by simp [sevenKinds]),
      kindFilter_sorterOut (by simp [sevenKinds])]
  · intro k hk
    rw [kindFilter_sorterOut hk, kindFilter, sortByDate_filter]
    exact sortByDate_perm _
  · intro k hk
    rw [kindFilter_sorterOut hk]
    exact (sortByDate_pairwise es).sublist (List.filter_sublist _)
  · intro k hk D
    rw [kindFilter_sorterOut hk, kindFilter, sortByDate_filter, sortByDate_filter]
    refine sortByDate_of_pairwise (pairwise_entLe_of_const_date (D := D) ?_)
    intro x hx
    simpa using (List.mem_filter.mp hx).2
  · intro e he
    simp only [sorterOut, List.mem_append, List.mem_cons, or_assoc] at he
    rcases he with h | h | h | h | h | h | h | h | h | h | h | h | h <;>
      first
        | (rw [h]; simp [sectionEntry])
        | (rw [kindFilter_mem_type h]; simp)

/-- Witness for C1 on the three-entry example of the repository's own test:
the Options bucket of the output is the (permuted-into-place) Options part of
the input. -/
theorem sort_entries_buckets_witness :
    ∃ out, sort_entries
        [⟨"3".data, ⟨2021, 1, 1⟩, .Transaction⟩,
         ⟨"1".data, ⟨2021, 1, 2⟩, .Option⟩,
         ⟨"2".data, ⟨2021, 1, 3⟩, .Account⟩] = .ok out ∧
      (kindFilter .Option out).Perm
        (kindFilter .Option
          [⟨"3".data, ⟨2021, 1, 1⟩, .Transaction⟩,
           ⟨"1".data, ⟨2021, 1, 2⟩, .Option⟩,
           ⟨"2".data, ⟨2021, 1, 3⟩, .Account⟩]) := by
  obtain ⟨out, h1, _, h3, _⟩ := sort_entries_buckets
    [⟨"3".data, ⟨2021, 1, 1⟩, .Transaction⟩,
     ⟨"1".data, ⟨2021, 1, 2⟩, .Option⟩,
     ⟨"2".data, ⟨2021, 1, 3⟩, .Account⟩]
  exact ⟨out, h1, h3 .Option (by simp [sevenKinds])⟩

/-! ### Classifier claims -/

/-- C5: For every line beginning with the section-heading marker (a semicolon
followed by the decoration glyph repeated four times), the Line Classifier
returns Section and never Comment, although such lines also match the comment
rule (they begin with a semicolon); the section rule is tested before the
comment rule. -/
theorem marker_line_section (rest : Str) (n : Nat) :
    get_line_type (sectionMarker ++ rest) n = .ok .Section := by
  have hd : dateShape (sectionMarker ++ rest) = false := rfl
  have ho : ("option".data).isPrefixOf (sectionMarker ++ rest) = false := rfl
  have hs : sectionMarker.isPrefixOf (sectionMarker ++ rest) = true :=
    List.isPrefixOf_iff_prefix.mpr (List.prefix_append sectionMarker rest)
  simp [get_line_type, hd, ho, hs]

theorem section_heading_classification (rest : Str) (n : Nat) :
    commentMatch (sectionMarker ++ rest) = true ∧
    get_line_type (sectionMarker ++ rest) n = .ok .Section :=
  ⟨rfl, marker_line_section rest n⟩

theorem restNonWs_replicate (k : Nat) : restNonWs (List.replicate k ' ') = false := by
  induction k with
  | zero => rfl
  | succ k ih => rw [List.replicate_succ]; simpa [restNonWs] using ih

/-- C10: A line consisting only of one or more space characters matches none
of the classifier's rules — it is neither Indent (which needs a non-whitespace
character after the leading spaces) nor Empty (which needs the zero-length
line) — so the classifier returns the unclassifiable-line error. -/
theorem blank_line_unclassifiable (k n : Nat) :
    get_line_type (List.replicate (k + 1) ' ') n =
      .error (.UnclassifiableLine n (List.replicate (k + 1) ' ')) := by
  have hd : dateShape (' ' :: List.replicate k ' ') = false := rfl
  have ho : ("option".data).isPrefixOf (' ' :: List.replicate k ' ') = false := rfl
  have hs : sectionMarker.isPrefixOf (' ' :: List.replicate k ' ') = false := rfl
  have hc : commentMatch (' ' :: List.replicate k ' ') = false := rfl
  have hi : indentMatch (' ' :: List.replicate k ' ') = false := by
    simp [indentMatch, restNonWs_replicate]
  rw [List.replicate_succ]
  simp [get_line_type, hd, ho, hs, hc, hi]

/-- C6: For every line starting with a token of shape YYYY-MM-DD (four digits,
dash, digit 0-1 then a digit, dash, digit 0-3 then a digit): if the token is a
valid calendar date the classifier returns Date carrying exactly that date,
and if the token matches the shape but is not a valid calendar date the
classifier fails with the date-parse error. -/
theorem date_token_classification
    (y1 y2 y3 y4 m1 m2 d1 d2 : Char) (rest : Str) (n : Nat)
    (hy1 : isDigit y1 = true) (hy2 : isDigit y2 = true)
    (hy3 : isDigit y3 = true) (hy4 : isDigit y4 = true)
    (hm1 : m1 = '0' ∨ m1 = '1') (hm2 : isDigit m2 = true)
    (hd1 : d1 = '0' ∨ d1 = '1' ∨ d1 = '2' ∨ d1 = '3') (hd2 : isDigit d2 = true) :
    (validDate (num4 y1 y2 y3 y4) (num2 m1 m2) (num2 d1 d2) = true →
      get_line_type (y1 :: y2 :: y3 :: y4 :: '-' :: m1 :: m2 :: '-' :: d1 :: d2 :: rest) n =
        .ok (.Date ⟨num4 y1 y2 y3 y4, num2 m1 m2, num2 d1 d2⟩)) ∧
    (validDate (num4 y1 y2 y3 y4) (num2 m1 m2) (num2 d1 d2) = false →
      get_line_type (y1 :: y2 :: y3 :: y4 :: '-' :: m1 :: m2 :: '-' :: d1 :: d2 :: rest) n =
        .error .DateParseError) := by
  have hds : dateShape (y1 :: y2 :: y3 :: y4 :: '-' :: m1 :: m2 :: '-' :: d1 :: d2 :: rest)
      = true := by
    simp only [dateShape, dateClasses, matchesShape, hy1, hy2, hy3, hy4, hm2, hd2,
      Bool.true_and, Bool.and_true]
    rcases hm1 with rfl | rfl <;> rcases hd1 with rfl | rfl | rfl | rfl <;> decide
  constructor <;> intro hv
  · simp [get_line_type, hds, parseDateToken, hv]
  · simp [get_line_type, hds, parseDateToken, hv]

/-- Witness for C6 at the valid date 2021-12-31 and the shaped but invalid
date 2021-02-30. -/
theorem date_token_classification_witness :
    get_line_type "2021-12-31 * x".data 3 = .ok (.Date ⟨2021, 12, 31⟩) ∧
    get_line_type "2021-02-30 * x".data 7 = .error .DateParseError := by
  constructor
  · exact (date_token_classification '2' '0' '2' '1' '1' '2' '3' '1' (" * x".data) 3
      rfl rfl rfl rfl (Or.inr rfl) rfl (Or.inr (Or.inr (Or.inr rfl))) rfl).1 (by decide)
  · exact (date_token_classification '2' '0' '2' '1' '0' '2' '3' '0' (" * x".data) 7
      rfl rfl rfl rfl (Or.inl rfl) rfl (Or.inr (Or.inr (Or.inr rfl))) rfl).2 (by decide)

/-! ### Entry constructor claim -/

/-- Whether a keyword token is found after the date, in the sense of the
Entry Constructor contract: after the ten date characters and a single space
there is a word character or a lone `*` or `!`. -/
def hasKeywordToken (l : Str) : Bool :=
  match l.drop 10 with
  | sp :: c :: _ => sp == ' ' && (isWordChar c || c == '*' || c == '!')
  | _ => false

theorem takeWhile_all_append (p : Char → Bool) (kw rest : Str)
    (hkw : ∀ c ∈ kw, p c = true)
    (hrest : rest.head?.all (fun c => !p c) = true) :
    (kw ++ rest).takeWhile p = kw := by
  induction kw with
  | nil =>
    cases rest with
    | nil => rfl
    | cons r rs =>
      simp only [Option.all, List.head?] at hrest
      simp [List.takeWhile, show p r = false by simpa using hrest]
  | cons k ks ih =>
    simp [List.takeWhile, hkw k (by simp), ih (fun c hc => hkw c (by simp [hc]))]

theorem construct_ok_of_keyword (line : Str) (d : Date) (kw : Str)
    (hk : keywordAt line = some kw) :
    ∃ t, construct_dated_entry line d = .ok ⟨line, d, t⟩ := by
  by_cases h1 : kw = ['*'] ∨ kw = ['!']
  · exact ⟨.Transaction, by simp [construct_dated_entry, hk, h1]⟩
  by_cases h2 : kw = "commodity".data
  · exact ⟨.Commodity, by simp [construct_dated_entry, hk, h1, h2]⟩
  by_cases h3 : kw = "price".data
  · exact ⟨.Price, by simp [construct_dated_entry, hk, h1, h2, h3]⟩
  by_cases h4 : kw = "open".data
  · exact ⟨.Account, by simp [construct_dated_entry, hk, h1, h2, h3, h4]⟩
  · exact ⟨.OtherEntry, by simp [construct_dated_entry, hk, h1, h2, h3, h4]⟩

/-- C8: For every line known to start with a valid date, the Entry Constructor
extracts the keyword immediately following the date (a maximal run of word
characters, or the single character `*` or `!`) and maps it: `*` or `!` to
Transaction, `commodity` to Commodity, `price` to Price, `open` to Account,
and any other keyword to OtherEntry; the produced entry's content is the
verbatim input line and its date is the supplied date; it fails with the
missing-directive error if and only if no keyword token is found after the
date. -/
theorem construct_dated_entry_spec (line : Str) (d : Date) (hds : dateShape line = true) :
    (∀ rest, line.drop 10 = ' ' :: '*' :: rest →
        construct_dated_entry line d = .ok ⟨line, d, .Transaction⟩) ∧
    (∀ rest, line.drop 10 = ' ' :: '!' :: rest →
        construct_dated_entry line d = .ok ⟨line, d, .Transaction⟩) ∧
    (∀ kw rest, line.drop 10 = ' ' :: (kw ++ rest) → kw ≠ [] →
        (∀ c ∈ kw, isWordChar c = true) →
        rest.head?.all (fun c => !isWordChar c) = true →
        ((kw = "commodity".data →
            construct_dated_entry line d = .ok ⟨line, d, .Commodity⟩) ∧
         (kw = "price".data →
            construct_dated_entry line d = .ok ⟨line, d, .Price⟩) ∧
         (kw = "open".data →
            construct_dated_entry line d = .ok ⟨line, d, .Account⟩) ∧
         (kw ≠ "commodity".data → kw ≠ "price".data → kw ≠ "open".data →
            construct_dated_entry line d = .ok ⟨line, d, .OtherEntry⟩))) ∧
    (construct_dated_entry line d = .error .MissingDirective ↔
        hasKeywordToken line = false) := by
  refine ⟨?_, ?_, ?_, ?_⟩
  · intro rest h
    simp [construct_dated_entry, keywordAt, keywordFrom, hds, h, isWordChar]
  · intro rest h
    simp [construct_dated_entry, keywordAt, keywordFrom, hds, h, isWordChar]
  · intro kw rest h hne hw hrest
    cases kw with
    | nil => exact absurd rfl hne
    | cons c cs =>
      have hk : keywordAt line = some (c :: cs) := by
        have htw : ((c :: cs) ++ rest).takeWhile isWordChar = c :: cs :=
          takeWhile_all_append isWordChar (c :: cs) rest hw hrest
        simp only [List.cons_append] at h htw
        simp [keywordAt, keywordFrom, hds, h, hw c (by simp), htw]
      have hstar : c :: cs ≠ ['*'] := by
        intro heq
        rw [heq] at hw
        exact absurd (hw '*' (by simp)) (by decide)
      have hbang : c :: cs ≠ ['!'] := by
        intro heq
        rw [heq] at hw
        exact absurd (hw '!' (by simp)) (by decide)
      refine ⟨?_, ?_, ?_, ?_⟩
      · intro hkw; rw [hkw] at hk; simp [construct_dated_entry, hk]
      · intro hkw; rw [hkw] at hk; simp [construct_dated_entry, hk]
      · intro hkw; rw [hkw] at hk; simp [construct_dated_entry, hk]
      · intro h1 h2 h3
        simp [construct_dated_entry, hk, hstar, hbang, h1, h2, h3]
  · constructor
    · intro herr
      cases hkw : keywordAt line with
      | some kw =>
        rcases construct_ok_of_keyword line d kw hkw with ⟨t, ht⟩
        rw [ht] at herr
        exact absurd herr (by simp)
      | none =>
        rw [keywordAt, if_pos hds] at hkw
        rcases hdrop : line.drop 10 with _ | ⟨sp, rest2⟩
        · simp [hasKeywordToken, hdrop]
        rcases rest2 with _ | ⟨c, cs⟩
        · simp [hasKeywordToken, hdrop]
        rw [hdrop] at hkw
        simp only [keywordFrom] at hkw
        simp only [hasKeywordToken, hdrop]
        by_cases hsp : sp = ' '
        · rw [if_pos hsp] at hkw
          subst hsp
          split at hkw
          · simp at hkw
          · split at hkw
            · simp at hkw
            · split at hkw
              · simp at hkw
              · simp_all
        · simp [hsp]
    · intro hnk
      have hknone : keywordAt line = none := by
        rw [keywordAt, if_pos hds]
        rcases hdrop : line.drop 10 with _ | ⟨sp, rest2⟩
        · simp [keywordFrom]
        rcases rest2 with _ | ⟨c, cs⟩
        · simp [keywordFrom]
        simp only [hasKeywordToken, hdrop] at hnk
        simp only [Bool.and_eq_false_iff, Bool.or_eq_false_iff, beq_eq_false_iff_ne] at hnk
        simp only [keywordFrom]
        rcases hnk with hsp | ⟨⟨hwc, hstar⟩, hbang⟩
        · simp [hsp]
        · by_cases hsp : sp = ' '
          · simp [hsp, hwc, hstar, hbang]
          · simp [hsp]
      simp [construct_dated_entry, hknone]

/-- Witness for C8: the open directive maps to Account, a generic keyword to
OtherEntry, and a line without a directive keyword fails. -/
theorem construct_dated_entry_spec_witness :
    construct_dated_entry "2021-01-01 open A".data ⟨2021, 1, 1⟩ =
      .ok ⟨"2021-01-01 open A".data, ⟨2021, 1, 1⟩, .Account⟩ ∧
    construct_dated_entry "2021-01-01 balance A".data ⟨2021, 1, 1⟩ =
      .ok ⟨"2021-01-01 balance A".data, ⟨2021, 1, 1⟩, .OtherEntry⟩ ∧
    construct_dated_entry "2021-01-01".data ⟨2021, 1, 1⟩ = .error .MissingDirective := by
  refine ⟨?_, ?_, ?_⟩
  · exact ((construct_dated_entry_spec "2021-01-01 open A".data ⟨2021, 1, 1⟩
      (by decide)).2.2.1 "open".data " A".data (by decide) (by decide)
      (by decide) (by decide)).2.2.1 rfl
  · exact ((construct_dated_entry_spec "2021-01-01 balance A".data ⟨2021, 1, 1⟩
      (by decide)).2.2.1 "balance".data " A".data (by decide) (by decide)
      (by decide) (by decide)).2.2.2 (by decide) (by decide) (by decide)
  · exact (construct_dated_entry_spec "2021-01-01".data ⟨2021, 1, 1⟩
      (by decide)).2.2.2.mpr (by decide)

/-! ### Assembler infrastructure -/

/-- The `Ok` result of the classifier does not depend on the line number,
which is only used in error payloads. -/
theorem get_line_type_ok_irrel {l : Str} {lt : Line} {n : Nat}
    (h : get_line_type l n = .ok lt) (n' : Nat) : get_line_type l n' = .ok lt := by
  unfold get_line_type at h ⊢
  by_cases h1 : dateShape l = true
  · rw [if_pos h1] at h ⊢; exact h
  rw [if_neg h1] at h ⊢
  by_cases h2 : ("option".data).isPrefixOf l = true
  · rw [if_pos h2] at h ⊢; exact h
  rw [if_neg h2] at h ⊢
  by_cases h3 : sectionMarker.isPrefixOf l = true
  · rw [if_pos h3] at h ⊢; exact h
  rw [if_neg h3] at h ⊢
  by_cases h4 : commentMatch l = true
  · rw [if_pos h4] at h ⊢; exact h
  rw [if_neg h4] at h ⊢
  by_cases h5 : indentMatch l = true
  · rw [if_pos h5] at h ⊢; exact h
  rw [if_neg h5] at h ⊢
  by_cases h6 : l = ([] : Str)
  · rw [if_pos h6] at h ⊢; exact h
  · rw [if_neg h6] at h; exact absurd h (by simp)

/-- Line-number independent classification fact. -/
def ClassOk (l : Str) (lt : Line) : Prop := ∀ n, get_line_type l n = .ok lt

theorem classOk_of_zero {l : Str} {lt : Line} (h : get_line_type l 0 = .ok lt) :
    ClassOk l lt := fun n => get_line_type_ok_irrel h n

/-- The last stored entry (the accumulator head) is not a comment. -/
def HeadNC : List Entry → Prop
  | [] => True
  | e :: _ => e.entry_type ≠ .Comment

theorem stepLine_eq {acc : List Entry} {n : Nat} {l : Str} {lt : Line} {e : Entry}
    (hl : get_line_type l n = .ok lt) (hc : mkCandidate l lt = .ok (some e)) :
    stepLine acc n l =
      pushOrMerge (absorbComment acc e).2 n (absorbComment acc e).1 := by
  simp [stepLine, hl, hc]

theorem stepLine_none {acc : List Entry} {n : Nat} {l : Str} {lt : Line}
    (hl : get_line_type l n = .ok lt) (hc : mkCandidate l lt = .ok none) :
    stepLine acc n l = .ok acc := by
  simp [stepLine, hl, hc]

theorem absorbComment_fst_type (acc : List Entry) (e : Entry) :
    ((absorbComment acc e).1).entry_type = e.entry_type := by
  cases acc with
  | nil => rfl
  | cons c rest => by_cases h : c.entry_type = .Comment <;> simp [absorbComment, h]

theorem absorbComment_nc (acc : List Entry) (e : Entry) (h : HeadNC acc) :
    absorbComment acc e = (e, acc) := by
  cases acc with
  | nil => rfl
  | cons c rest => simp [absorbComment, show c.entry_type ≠ .Comment from h]

theorem absorbComment_comment {c : Entry} (rest : List Entry) (e : Entry)
    (h : c.entry_type = .Comment) :
    absorbComment (c :: rest) e =
      ({ e with content := c.content ++ '\n' :: e.content }, rest) := by
  simp [absorbComment, h]

theorem absorbComment_snd_sub (acc : List Entry) (e : Entry) :
    ∀ x ∈ (absorbComment acc e).2, x ∈ acc := by
  cases acc with
  | nil => simp [absorbComment]
  | cons c rest =>
    by_cases h : c.entry_type = .Comment
    · intro x hx
      rw [absorbComment_comment rest e h] at hx
      exact List.mem_cons_of_mem c hx
    · intro x hx
      rw [absorbComment_nc _ _ (show HeadNC (c :: rest) from h)] at hx
      exact hx

theorem loop_append (acc : List Entry) (n0 : Nat) (xs ys : List Str) :
    find_entries_loop acc n0 (xs ++ ys) =
      (find_entries_loop acc n0 xs).bind
        (fun a => find_entries_loop a (n0 + xs.length) ys) := by
  induction xs generalizing acc n0 with
  | nil => simp [find_entries_loop]
  | cons x xs ih =>
    simp only [List.cons_append, find_entries_loop]
    cases hstep : stepLine acc (n0 + 1) x with
    | ok acc' =>
      simp only [ebind_ok, ebindm_ok, List.append_eq]
      rw [ih]
      have hn : n0 + 1 + xs.length = n0 + (x :: xs).length := by
        simp [List.length_cons]; omega
      rw [hn]
    | error err => simp

/-! ### C9: only storable kinds persist -/

/-- The storable entry kinds: every kind except the transient Section and
Indented. -/
def storableKinds : List EntryType :=
  [.Header, .Option, .Account, .Commodity, .Price, .Transaction, .OtherEntry, .Comment]

theorem construct_kind {line : Str} {d : Date} {e : Entry}
    (h : construct_dated_entry line d = .ok e) :
    e.content = line ∧ e.date = d ∧
      (e.entry_type = .Transaction ∨ e.entry_type = .Commodity ∨
       e.entry_type = .Price ∨ e.entry_type = .Account ∨
       e.entry_type = .OtherEntry) := by
  cases hk : keywordAt line with
  | none => simp [construct_dated_entry, hk] at h
  | some kw =>
    simp only [construct_dated_entry, hk] at h
    split at h
    · injection h with h; subst h; simp
    split at h
    · injection h with h; subst h; simp
    split at h
    · injection h with h; subst h; simp
    split at h
    · injection h with h; subst h; simp
    · injection h with h; subst h; simp

theorem mkCandidate_kind {l : Str} {lt : Line} {e : Entry}
    (h : mkCandidate l lt = .ok (some e)) :
    e.entry_type ∈ storableKinds ∨ e.entry_type = .Indented := by
  cases lt with
  | Date d =>
    simp only [mkCandidate] at h
    cases hc : construct_dated_entry l d with
    | ok e' =>
      rw [hc] at h
      simp only [emap_ok, Except.ok.injEq, Option.some.injEq] at h
      subst h
      rcases (construct_kind hc).2.2 with h | h | h | h | h <;>
        simp [h, storableKinds]
    | error err => rw [hc] at h; simp at h
  | Option =>
    simp only [mkCandidate, Except.ok.injEq, Option.some.injEq] at h
    subst h; simp [storableKinds]
  | Comment =>
    simp only [mkCandidate, Except.ok.injEq, Option.some.injEq] at h
    subst h; simp [storableKinds]
  | Indent =>
    simp only [mkCandidate, Except.ok.injEq, Option.some.injEq] at h
    subst h; simp
  | Section => simp [mkCandidate] at h
  | Empty => simp [mkCandidate] at h

theorem pushOrMerge_kinds {acc2 : List Entry} {n : Nat} {e : Entry} {acc' : List Entry}
    (h : pushOrMerge acc2 n e = .ok acc')
    (hsub : ∀ x ∈ acc2, x.entry_type ∈ storableKinds)
    (he : e.entry_type ∈ storableKinds ∨ e.entry_type = .Indented) :
    ∀ x ∈ acc', x.entry_type ∈ storableKinds := by
  rw [pushOrMerge.eq_def] at h
  cases het : e.entry_type
  case Indented =>
    rw [het] at h
    cases acc2 with
    | nil => simp at h
    | cons last rest =>
      simp only at h
      split at h
      · injection h with h; subst h
        intro x hx
        rcases List.mem_cons.mp hx with rfl | hx
        · simpa using hsub last (by simp)
        · exact hsub x (by simp [hx])
      · injection h with h; subst h
        intro x hx
        rcases List.mem_cons.mp hx with rfl | hx
        · simpa using hsub last (by simp)
        · exact hsub x (by simp [hx])
      · simp at h
  all_goals
    (rw [het] at h
     injection h with h
     subst h
     intro x hx
     rcases List.mem_cons.mp hx with rfl | hx <;>
       first
         | exact he.resolve_right (by simp [het])
         | exact hsub x hx)

theorem stepLine_kinds {acc : List Entry} {n : Nat} {l : Str} {acc' : List Entry}
    (h : stepLine acc n l = .ok acc')
    (hacc : ∀ e ∈ acc, e.entry_type ∈ storableKinds) :
    ∀ e ∈ acc', e.entry_type ∈ storableKinds := by
  rw [stepLine] at h
  cases hl : get_line_type l n with
  | error err => rw [hl] at h; simp at h
  | ok lt =>
    rw [hl] at h
    simp only [ebind_ok] at h
    cases hc : mkCandidate l lt with
    | error err => rw [hc] at h; simp at h
    | ok cand =>
      rw [hc] at h
      cases cand with
      | none => simp at h; subst h; exact hacc
      | some e =>
        simp only [ebind_ok] at h
        refine pushOrMerge_kinds h ?_ ?_
        · intro x hx
          exact hacc x (absorbComment_snd_sub acc e x hx)
        · rw [absorbComment_fst_type]
          exact mkCandidate_kind hc

theorem loop_kinds {acc : List Entry} {n0 : Nat} {ls : List Str} {res : List Entry}
    (h : find_entries_loop acc n0 ls = .ok res)
    (hacc : ∀ e ∈ acc, e.entry_type ∈ storableKinds) :
    ∀ e ∈ res, e.entry_type ∈ storableKinds := by
  induction ls generalizing acc n0 with
  | nil => simp only [find_entries_loop, Except.ok.injEq] at h; subst h; exact hacc
  | cons x xs ih =>
    rw [find_entries_loop] at h
    cases hstep : stepLine acc (n0 + 1) x with
    | error err => rw [hstep] at h; simp at h
    | ok acc' =>
      rw [hstep] at h
      simp only [ebind_ok] at h
      exact ih h (stepLine_kinds hstep hacc)

/-- C9: For every input on which assembly succeeds, every entry in the Entry
Assembler's output list has a kind in the storable subset (Header, Option,
Account, Commodity, Price, Transaction, OtherEntry, Comment); no Section-kind
or Indented-kind entry ever persists in the assembled list. -/
theorem find_entries_storable (lines : List Str) (n_skip : Nat) (es : List Entry)
    (h : find_entries lines n_skip = .ok es) :
    ∀ e ∈ es, e.entry_type ∈ storableKinds := by
  rw [find_entries] at h
  split at h
  · simp at h
  · cases hloop : find_entries_loop
        (((lines.take n_skip).map (fun l => Entry.mk l sentinel .Header)).reverse)
        n_skip (lines.drop n_skip) with
    | error err => rw [hloop] at h; simp at h
    | ok res =>
      rw [hloop] at h
      simp only [emap_ok, Except.ok.injEq] at h
      subst h
      have hinit : ∀ e ∈ ((lines.take n_skip).map
          (fun l => Entry.mk l sentinel .Header)).reverse,
          e.entry_type ∈ storableKinds := by
        intro e he
        rw [List.mem_reverse, List.mem_map] at he
        rcases he with ⟨a, _, rfl⟩
        simp [storableKinds]
      intro e he
      exact loop_kinds hloop hinit e (List.mem_reverse.mp he)

/-- Witness for C9 on a small concrete file: the assembled transaction entry
of that file has a storable kind. -/
theorem find_entries_storable_witness :
    (Entry.mk ("; c\n2021-01-01 * t\n  leg".data) ⟨2021, 1, 1⟩
      .Transaction).entry_type ∈ storableKinds :=
  find_entries_storable
    ["; c".data, "2021-01-01 * t".data, "  leg".data, "option a".data] 0
    [Entry.mk ("; c\n2021-01-01 * t\n  leg".data) ⟨2021, 1, 1⟩ .Transaction,
     Entry.mk ("option a".data) sentinel .Option] (by decide)
    (Entry.mk ("; c\n2021-01-01 * t\n  leg".data) ⟨2021, 1, 1⟩ .Transaction)
    (by decide)

/-! ### C3, C4, C7: continuation and comment folding -/

/-- Successive appending of continuation lines, each preceded by a newline. -/
def appendLines (c : Str) (is : List Str) : Str :=
  is.foldl (fun c l => c ++ '\n' :: l) c

theorem appendLines_append_left (a b : Str) (xs : List Str) :
    appendLines (a ++ b) xs = a ++ appendLines b xs := by
  induction xs generalizing b with
  | nil => rfl
  | cons x xs ih =>
    show appendLines ((a ++ b) ++ '\n' :: x) xs = a ++ appendLines (b ++ '\n' :: x) xs
    rw [List.append_assoc, ih]

theorem joinNl_eq_appendLines (l : Str) (ls : List Str) :
    joinNl (l :: ls) = appendLines l ls := by
  induction ls generalizing l with
  | nil => rfl
  | cons x xs ih =>
    show l ++ '\n' :: joinNl (x :: xs) = appendLines (l ++ '\n' :: x) xs
    rw [ih]
    have h2 : l ++ '\n' :: x = (l ++ ['\n']) ++ x := by simp
    rw [h2, appendLines_append_left]
    simp

theorem loop_indent_run (is : List Str) (his : ∀ l ∈ is, ClassOk l .Indent)
    (p : Entry) (hp : p.entry_type = .Transaction ∨ p.entry_type = .Commodity)
    (acc : List Entry) (n0 : Nat) :
    find_entries_loop (p :: acc) n0 is =
      .ok (⟨appendLines p.content is, p.date, p.entry_type⟩ :: acc) := by
  induction is generalizing p n0 with
  | nil => simp [find_entries_loop, appendLines]
  | cons i is ih =>
    rw [find_entries_loop]
    have hnc : HeadNC (p :: acc) := by
      show p.entry_type ≠ .Comment
      rcases hp with hp | hp <;> simp [hp]
    have hstep : stepLine (p :: acc) (n0 + 1) i =
        .ok (⟨p.content ++ '\n' :: i, p.date, p.entry_type⟩ :: acc) := by
      rw [stepLine_eq (his i (by simp) (n0 + 1)) rfl, absorbComment_nc _ _ hnc]
      rcases hp with hp | hp <;> simp [pushOrMerge, hp]
    rw [hstep]
    simp only [ebind_ok]
    rw [ih (fun l hl => his l (by simp [hl])) _ (by simpa using hp)]
    rfl

/-- C3: For every transaction directive line followed by one or more indented
continuation lines, the Entry Assembler produces exactly one Entry whose
content is the directive line followed by each indented line in original
order, joined by single newline characters, and whose kind and date are those
of the original directive entry (the merge preserves the popped entry's kind
and date). -/
theorem transaction_continuation_merge (acc : List Entry) (n0 : Nat) (ld : Str)
    (d : Date) (lis : List Str) (hnc : HeadNC acc) (hne : lis ≠ [])
    (hld : ClassOk ld (.Date d))
    (hct : construct_dated_entry ld d = .ok ⟨ld, d, .Transaction⟩)
    (hlis : ∀ l ∈ lis, ClassOk l .Indent) :
    find_entries_loop acc n0 (ld :: lis) =
      .ok (⟨joinNl (ld :: lis), d, .Transaction⟩ :: acc) := by
  rw [find_entries_loop]
  have hstep : stepLine acc (n0 + 1) ld = .ok (⟨ld, d, .Transaction⟩ :: acc) := by
    rw [stepLine_eq (e := ⟨ld, d, .Transaction⟩) (hld (n0 + 1))
      (by simp [mkCandidate, hct]), absorbComment_nc _ _ hnc]
    simp [pushOrMerge]
  rw [hstep]
  simp only [ebind_ok]
  rw [loop_indent_run lis hlis ⟨ld, d, .Transaction⟩ (Or.inl rfl) acc (n0 + 1),
    joinNl_eq_appendLines]

/-- Witness for C3: a transaction with two continuation lines becomes one
entry holding all three lines. -/
theorem transaction_continuation_merge_witness :
    find_entries_loop [] 0 ["2021-01-01 * t".data, "  a".data, "  b".data] =
      .ok [⟨"2021-01-01 * t\n  a\n  b".data, ⟨2021, 1, 1⟩, .Transaction⟩] := by
  have h := transaction_continuation_merge [] 0 "2021-01-01 * t".data ⟨2021, 1, 1⟩
    ["  a".data, "  b".data] trivial (by simp)
    (classOk_of_zero (by decide)) (by decide)
    (by
      intro l hl
      fin_cases hl <;> exact classOk_of_zero (by decide))
  simpa using h

/-- C4: During assembly, whenever the last entry in the output list has
Comment kind, the next candidate entry absorbs it: the comment entry is
popped and its content plus a newline is prepended to the candidate's
content; consequently a comment line immediately followed by a transaction
yields one entry whose content is the comment, a newline and the transaction
line, while a comment at end-of-file with no following candidate remains a
standalone Comment entry in the assembler's output list. -/
theorem comment_absorption :
    (∀ (c : Entry) (rest : List Entry) (n : Nat) (l : Str) (lt : Line) (e : Entry),
      c.entry_type = .Comment → get_line_type l n = .ok lt →
      mkCandidate l lt = .ok (some e) →
      stepLine (c :: rest) n l =
        pushOrMerge rest n { e with content := c.content ++ '\n' :: e.content }) ∧
    (∀ (acc : List Entry) (n0 : Nat) (lc ld : Str) (d : Date),
      HeadNC acc → ClassOk lc .Comment → ClassOk ld (.Date d) →
      construct_dated_entry ld d = .ok ⟨ld, d, .Transaction⟩ →
      find_entries_loop acc n0 [lc, ld] =
        .ok (⟨lc ++ '\n' :: ld, d, .Transaction⟩ :: acc)) ∧
    (∀ (acc : List Entry) (n0 : Nat) (lc : Str),
      HeadNC acc → ClassOk lc .Comment →
      find_entries_loop acc n0 [lc] = .ok (⟨lc, sentinel, .Comment⟩ :: acc)) := by
  refine ⟨?_, ?_, ?_⟩
  · intro c rest n l lt e hcom hl hc
    rw [stepLine_eq hl hc, absorbComment_comment rest e hcom]
  · intro acc n0 lc ld d hnc hlc hld hct
    rw [find_entries_loop]
    have hstep1 : stepLine acc (n0 + 1) lc = .ok (⟨lc, sentinel, .Comment⟩ :: acc) := by
      rw [stepLine_eq (hlc (n0 + 1)) rfl, absorbComment_nc _ _ hnc]
      simp [pushOrMerge]
    rw [hstep1]
    simp only [ebind_ok]
    rw [find_entries_loop]
    have hstep2 : stepLine (⟨lc, sentinel, .Comment⟩ :: acc) (n0 + 1 + 1) ld =
        .ok (⟨lc ++ '\n' :: ld, d, .Transaction⟩ :: acc) := by
      rw [stepLine_eq (e := ⟨ld, d, .Transaction⟩) (hld (n0 + 1 + 1))
        (by simp [mkCandidate, hct]), absorbComment_comment acc _ rfl]
      simp [pushOrMerge]
    rw [hstep2]
    rfl
  · intro acc n0 lc hnc hlc
    rw [find_entries_loop]
    have hstep : stepLine acc (n0 + 1) lc = .ok (⟨lc, sentinel, .Comment⟩ :: acc) := by
      rw [stepLine_eq (hlc (n0 + 1)) rfl, absorbComment_nc _ _ hnc]
      simp [pushOrMerge]
    rw [hstep]
    rfl

/-- Witness for C4: comment then transaction merges; a lone trailing comment
stays a standalone Comment entry. -/
theorem comment_absorption_witness :
    find_entries_loop [] 0 ["; c".data, "2021-01-01 * t".data] =
      .ok [⟨"; c\n2021-01-01 * t".data, ⟨2021, 1, 1⟩, .Transaction⟩] ∧
    find_entries_loop [] 5 ["; tail".data] =
      .ok [⟨"; tail".data, sentinel, .Comment⟩] := by
  constructor
  · have h := comment_absorption.2.1 [] 0 "; c".data "2021-01-01 * t".data ⟨2021, 1, 1⟩
      trivial (classOk_of_zero (by decide)) (classOk_of_zero (by decide)) (by decide)
    simpa using h
  · exact comment_absorption.2.2 [] 5 "; tail".data trivial (classOk_of_zero (by decide))

/-- C7: Assembling an Indent-kind candidate fails with the misplaced-indent
error exactly when it cannot be merged: if the output list is empty (an
indented first line of input with skip count zero produces the error at line
1), or if the popped last entry's kind is neither Transaction nor Commodity
(nothing is restored and the run aborts); when the popped entry is a
Transaction or Commodity the merge succeeds instead. -/
theorem misplaced_indent_spec (n : Nat) (l : Str) (hl : ClassOk l .Indent) :
    (stepLine ([] : List Entry) n l = .error (.MisplacedIndent n none)) ∧
    (∀ (last : Entry) (rest : List Entry), HeadNC (last :: rest) →
      last.entry_type ≠ .Transaction → last.entry_type ≠ .Commodity →
      stepLine (last :: rest) n l = .error (.MisplacedIndent n (some l))) ∧
    (∀ (last : Entry) (rest : List Entry), HeadNC (last :: rest) →
      (last.entry_type = .Transaction ∨ last.entry_type = .Commodity) →
      stepLine (last :: rest) n l =
        .ok (⟨last.content ++ '\n' :: l, last.date, last.entry_type⟩ :: rest)) ∧
    (∀ ls : List Str, find_entries (l :: ls) 0 = .error (.MisplacedIndent 1 none)) := by
  refine ⟨?_, ?_, ?_, ?_⟩
  · rw [stepLine_eq (hl n) rfl]
    rfl
  · intro last rest hnc ht hc
    rw [stepLine_eq (hl n) rfl, absorbComment_nc _ _ hnc]
    rw [pushOrMerge.eq_def]
    cases het : last.entry_type <;> simp_all
  · intro last rest hnc htc
    rw [stepLine_eq (hl n) rfl, absorbComment_nc _ _ hnc]
    rcases htc with het | het <;> simp [pushOrMerge, het]
  · intro ls
    rw [find_entries]
    simp only [Nat.not_lt_zero, if_false, List.take_zero, List.drop_zero,
      List.map_nil, List.reverse_nil]
    rw [find_entries_loop]
    have hstep : stepLine ([] : List Entry) 1 l = .error (.MisplacedIndent 1 none) := by
      rw [stepLine_eq (hl 1) rfl]
      rfl
    rw [hstep]
    rfl

/-- Witness for C7 at a concrete indented line. -/
theorem misplaced_indent_spec_witness :
    stepLine ([] : List Entry) 4 "  x".data = .error (.MisplacedIndent 4 none) ∧
    find_entries ["  x".data] 0 = .error (.MisplacedIndent 1 none) := by
  constructor
  · exact (misplaced_indent_spec 4 "  x".data (classOk_of_zero (by decide))).1
  · exact (misplaced_indent_spec 4 "  x".data
      (classOk_of_zero (by decide))).2.2.2 []

/-! ### C2: newline splitting and joining -/

/-- A string with no newline character, as every line read from a file is. -/
def NoNl (l : Str) : Prop := '\n' ∉ l

instance decNoNl (l : Str) : Decidable (NoNl l) :=
  inferInstanceAs (Decidable ('\n' ∉ l))

theorem splitNl_of_noNl {l : Str} (h : NoNl l) : splitNl l = [l] := by
  induction l with
  | nil => rfl
  | cons c cs ih =>
    have hc : c ≠ '\n' := fun hc => h (by simp [hc])
    have hcs : NoNl cs := fun hm => h (by simp [hm, NoNl])
    rw [splitNl, if_neg hc, ih hcs]

theorem splitNl_append_cons {l : Str} (s : Str) (h : NoNl l) :
    splitNl (l ++ '\n' :: s) = l :: splitNl s := by
  induction l with
  | nil => simp [splitNl]
  | cons c cs ih =>
    have hc : c ≠ '\n' := fun hc => h (by simp [hc])
    have hcs : NoNl cs := fun hm => h (by simp [hm, NoNl])
    rw [List.cons_append, splitNl, if_neg hc, ih hcs]

theorem splitNl_joinNl {ls : List Str} (hne : ls ≠ []) (h : ∀ l ∈ ls, NoNl l) :
    splitNl (joinNl ls) = ls := by
  induction ls with
  | nil => exact absurd rfl hne
  | cons l ls ih =>
    cases ls with
    | nil => exact splitNl_of_noNl (h l (by simp))
    | cons x xs =>
      show splitNl (l ++ '\n' :: joinNl (x :: xs)) = l :: x :: xs
      rw [splitNl_append_cons _ (h l (by simp)),
        ih (by simp) (fun a ha => h a (by simp [ha]))]

theorem joinNl_append {xs ys : List Str} (hx : xs ≠ []) (hy : ys ≠ []) :
    joinNl (xs ++ ys) = joinNl xs ++ '\n' :: joinNl ys := by
  induction xs with
  | nil => exact absurd rfl hx
  | cons a as ih =>
    cases as with
    | nil =>
      cases ys with
      | nil => exact absurd rfl hy
      | cons b bs => rfl
    | cons c cs =>
      show joinNl (a :: ((c :: cs) ++ ys)) = (a ++ '\n' :: joinNl (c :: cs)) ++ '\n' :: joinNl ys
      have h1 : joinNl (a :: ((c :: cs) ++ ys)) = a ++ '\n' :: joinNl ((c :: cs) ++ ys) := rfl
      rw [h1, ih (by simp)]
      simp

theorem render_append (a b : List Entry) : render (a ++ b) = render a ++ render b := by
  simp [render]

theorem render_cons (e : Entry) (es : List Entry) :
    render (e :: es) = splitNl e.content ++ render es := by
  simp [render]

theorem render_nil : render [] = [] := rfl

@[simp] theorem joinNl_singleton (l : Str) : joinNl [l] = l := rfl

/-! ### C2: the shape of assembled entries -/

/-- Lines all classified as comments, each newline-free. -/
def CommentLines (cs : List Str) : Prop := ∀ l ∈ cs, ClassOk l .Comment ∧ NoNl l

/-- A directive line: an option line (Option kind, sentinel date), or a dated
line whose constructed entry has exactly the given kind and date. -/
def DirLine (dl : Str) (t : EntryType) (d : Date) : Prop :=
  NoNl dl ∧
  ((ClassOk dl .Option ∧ t = .Option ∧ d = sentinel) ∨
   (ClassOk dl (.Date d) ∧ construct_dated_entry dl d = .ok ⟨dl, d, t⟩))

/-- One continuation block: the comment lines absorbed into the indented line,
then the indented line itself. -/
def blockLines (b : List Str × Str) : List Str := b.1 ++ [b.2]

/-- The lines of a list of continuation blocks. -/
def blocksLines (bs : List (List Str × Str)) : List Str := (bs.map blockLines).flatten

/-- A well-formed continuation block. -/
def BlockWF (b : List Str × Str) : Prop :=
  CommentLines b.1 ∧ ClassOk b.2 .Indent ∧ NoNl b.2

/-- The shape of every entry the assembler can store (skip count zero): either
a run of merged comment lines, or a directive line with its absorbed leading
comments and its continuation blocks. -/
inductive WFEntry : Entry → Prop
  | comment (cs : List Str) (hne : cs ≠ []) (hc : CommentLines cs) :
      WFEntry ⟨joinNl cs, sentinel, .Comment⟩
  | dir (cs : List Str) (dl : Str) (t : EntryType) (d : Date)
      (bs : List (List Str × Str))
      (hc : CommentLines cs) (hdl : DirLine dl t d)
      (hbs : ∀ b ∈ bs, BlockWF b)
      (hmulti : bs ≠ [] → t = .Transaction ∨ t = .Commodity) :
      WFEntry ⟨joinNl (cs ++ dl :: blocksLines bs), d, t⟩

theorem dirLine_kind {dl : Str} {t : EntryType} {d : Date} (h : DirLine dl t d) :
    t ≠ .Comment ∧ t ≠ .Section ∧ t ≠ .Indented ∧ t ≠ .Header := by
  rcases h.2 with ⟨_, ht, _⟩ | ⟨_, hc⟩
  · subst ht; simp
  · rcases (construct_kind hc).2.2 with ht | ht | ht | ht | ht <;> simp_all

theorem wfEntry_kind {e : Entry} (h : WFEntry e) :
    e.entry_type ≠ .Section ∧ e.entry_type ≠ .Indented ∧ e.entry_type ≠ .Header := by
  cases h with
  | comment cs hne hc => simp
  | dir cs dl t d bs hc hdl hbs hmulti =>
    have := dirLine_kind hdl
    simp_all

theorem blocksLines_append (bs : List (List Str × Str)) (b : List Str × Str) :
    blocksLines (bs ++ [b]) = blocksLines bs ++ blockLines b := by
  simp [blocksLines]

theorem blockLines_ne_nil (b : List Str × Str) : blockLines b ≠ [] := by
  simp [blockLines]

theorem mkCandidate_cases {l : Str} {lt : Line} {e : Entry} {n : Nat}
    (hl : get_line_type l n = .ok lt) (hc : mkCandidate l lt = .ok (some e))
    (hnl : NoNl l) :
    (e = ⟨l, sentinel, .Indented⟩ ∧ ClassOk l .Indent) ∨
    (e = ⟨l, sentinel, .Comment⟩ ∧ ClassOk l .Comment) ∨
    (e.content = l ∧ DirLine l e.entry_type e.date ∧
      e.entry_type ≠ .Indented ∧ e.entry_type ≠ .Comment) := by
  cases lt with
  | Date d =>
    simp only [mkCandidate] at hc
    cases hcd : construct_dated_entry l d with
    | error err => rw [hcd] at hc; simp at hc
    | ok e' =>
      rw [hcd] at hc
      simp only [emap_ok, Except.ok.injEq, Option.some.injEq] at hc
      subst hc
      obtain ⟨ec, ed, et⟩ := e'
      obtain ⟨h1, h2, h3⟩ := construct_kind hcd
      simp only [Entry.mk.injEq] at h1 h2 h3 ⊢
      subst h1
      subst h2
      refine Or.inr (Or.inr ⟨rfl, ⟨hnl, Or.inr ⟨?_, ?_⟩⟩, ?_, ?_⟩)
      · exact classOk_of_zero (get_line_type_ok_irrel hl 0)
      · exact hcd
      · rcases h3 with h | h | h | h | h <;> simp [h]
      · rcases h3 with h | h | h | h | h <;> simp [h]
  | Option =>
    simp only [mkCandidate, Except.ok.injEq, Option.some.injEq] at hc
    subst hc
    refine Or.inr (Or.inr ⟨rfl, ⟨hnl, Or.inl ⟨?_, rfl, rfl⟩⟩, by simp, by simp⟩)
    exact classOk_of_zero (get_line_type_ok_irrel hl 0)
  | Comment =>
    simp only [mkCandidate, Except.ok.injEq, Option.some.injEq] at hc
    subst hc
    exact Or.inr (Or.inl ⟨rfl, classOk_of_zero (get_line_type_ok_irrel hl 0)⟩)
  | Indent =>
    simp only [mkCandidate, Except.ok.injEq, Option.some.injEq] at hc
    subst hc
    exact Or.inl ⟨rfl, classOk_of_zero (get_line_type_ok_irrel hl 0)⟩
  | Section => simp [mkCandidate] at hc
  | Empty => simp [mkCandidate] at hc

theorem blocksLines_nil : blocksLines [] = [] := rfl

theorem wfEntry_comment_inv {c : Entry} (h : WFEntry c) (hc : c.entry_type = .Comment) :
    ∃ cs, cs ≠ [] ∧ CommentLines cs ∧ c.content = joinNl cs := by
  cases h with
  | comment cs hne hcs => exact ⟨cs, hne, hcs, rfl⟩
  | dir cs dl t d bs hc2 hdl hbs hmulti =>
    exact absurd hc (by simpa using (dirLine_kind hdl).1)

theorem wfEntry_dir_inv {p : Entry} (h : WFEntry p)
    (hp : p.entry_type = .Transaction ∨ p.entry_type = .Commodity) :
    ∃ cs dl bs, CommentLines cs ∧ DirLine dl p.entry_type p.date ∧
      (∀ b ∈ bs, BlockWF b) ∧ p.content = joinNl (cs ++ dl :: blocksLines bs) := by
  cases h with
  | comment cs hne hcs => exact absurd hp (by simp)
  | dir cs dl t d bs hc hdl hbs hmulti => exact ⟨cs, dl, bs, hc, hdl, hbs, rfl⟩

/-- Characterization of comment absorption against a well-formed accumulator:
the candidate's single-line content gets the pending comment lines (possibly
none) joined in front of it. -/
theorem absorb_char (acc : List Entry) (e0 : Entry)
    (hacc : ∀ e ∈ acc, WFEntry e) :
    ∃ cs_c acc2, CommentLines cs_c ∧ (∀ x ∈ acc2, x ∈ acc) ∧
      (∀ e ∈ acc2, WFEntry e) ∧
      absorbComment acc e0 =
        (⟨joinNl (cs_c ++ [e0.content]), e0.date, e0.entry_type⟩, acc2) := by
  cases acc with
  | nil =>
    refine ⟨[], [], by simp [CommentLines], by simp, by simp, ?_⟩
    rfl
  | cons c rest =>
    by_cases hcom : c.entry_type = .Comment
    · obtain ⟨cs, hne, hcs, hcont⟩ := wfEntry_comment_inv (hacc c (by simp)) hcom
      refine ⟨cs, rest, hcs, by intro x hx; simp [hx],
        fun e he => hacc e (by simp [he]), ?_⟩
      rw [absorbComment_comment rest e0 hcom, hcont,
        joinNl_append hne (by simp)]
      rfl
    · refine ⟨[], c :: rest, by simp [CommentLines], by simp, hacc, ?_⟩
      rw [absorbComment_nc _ _ (show HeadNC (c :: rest) from hcom)]
      rfl

theorem pushOrMerge_push {acc2 : List Entry} {n : Nat} {e1 : Entry}
    (hne : e1.entry_type ≠ .Indented) :
    pushOrMerge acc2 n e1 = .ok (e1 :: acc2) := by
  rw [pushOrMerge.eq_def]
  cases het : e1.entry_type <;> simp_all

/-- Merging one continuation block into a well-formed multi-line entry yields
a well-formed entry again. -/
theorem merged_wf {last : Entry} (hlast : WFEntry last)
    (htc : last.entry_type = .Transaction ∨ last.entry_type = .Commodity)
    (cs_c : List Str) (l : Str) (hcsc : CommentLines cs_c)
    (hcls : ClassOk l .Indent) (hnl : NoNl l) :
    WFEntry ⟨last.content ++ '\n' :: joinNl (cs_c ++ [l]), last.date,
      last.entry_type⟩ := by
  obtain ⟨CS, DL, BS, hCS, hDL, hBS, hcont⟩ := wfEntry_dir_inv hlast htc
  have hj : last.content ++ '\n' :: joinNl (cs_c ++ [l]) =
      joinNl (CS ++ DL :: blocksLines (BS ++ [(cs_c, l)])) := by
    rw [hcont,
      ← joinNl_append (show (CS ++ DL :: blocksLines BS : List Str) ≠ [] by simp)
        (show (cs_c ++ [l] : List Str) ≠ [] by simp)]
    congr 1
    rw [blocksLines_append]
    simp [List.append_assoc, blockLines]
  rw [hj]
  refine WFEntry.dir CS DL last.entry_type last.date (BS ++ [(cs_c, l)]) hCS hDL ?_ ?_
  · intro b hb
    rcases List.mem_append.mp hb with hb | hb
    · exact hBS b hb
    · rw [List.mem_singleton.mp hb]
      exact ⟨hcsc, hcls, hnl⟩
  · intro _
    exact htc

/-- The assembler step preserves well-formedness of every stored entry. -/
theorem stepLine_wf {acc : List Entry} {n : Nat} {l : Str} {acc' : List Entry}
    (h : stepLine acc n l = .ok acc')
    (hacc : ∀ e ∈ acc, WFEntry e) (hnl : NoNl l) :
    ∀ e ∈ acc', WFEntry e := by
  rw [stepLine] at h
  cases hl : get_line_type l n with
  | error err => rw [hl] at h; simp at h
  | ok lt =>
    rw [hl] at h
    simp only [ebind_ok] at h
    cases hc : mkCandidate l lt with
    | error err => rw [hc] at h; simp at h
    | ok cand =>
      rw [hc] at h
      cases cand with
      | none => simp only [ebind_ok, epure_eq_ok, Except.ok.injEq] at h; subst h; exact hacc
      | some e0 =>
        simp only [ebind_ok] at h
        obtain ⟨cs_c, acc2, hcsc, hsub, hwf2, habs⟩ := absorb_char acc e0 hacc
        rw [habs] at h
        simp only at h
        rcases mkCandidate_cases hl hc hnl with ⟨he0, hcls⟩ | ⟨he0, hcls⟩ |
          ⟨hec, hdl, hni, hnc2⟩
        · -- Indented candidate: must merge into a Transaction or Commodity
          subst he0
          simp only at h
          rw [pushOrMerge.eq_def] at h
          simp only at h
          cases acc2 with
          | nil => simp at h
          | cons last rest2 =>
            have hlast : WFEntry last := hwf2 last (by simp)
            simp only at h
            split at h
            case h_1 heqt =>
              injection h with h
              subst h
              intro e he
              rcases List.mem_cons.mp he with rfl | he
              · exact merged_wf hlast (Or.inl heqt) cs_c l hcsc hcls hnl
              · exact hwf2 e (by simp [he])
            case h_2 heqt =>
              injection h with h
              subst h
              intro e he
              rcases List.mem_cons.mp he with rfl | he
              · exact merged_wf hlast (Or.inr heqt) cs_c l hcsc hcls hnl
              · exact hwf2 e (by simp [he])
            case h_3 => simp at h
        · -- Comment candidate: pushed as a merged comment entry
          subst he0
          rw [pushOrMerge_push (by simp)] at h
          injection h with h
          subst h
          intro e he
          rcases List.mem_cons.mp he with rfl | he
          · refine WFEntry.comment (cs_c ++ [l]) (by simp) ?_
            intro x hx
            rcases List.mem_append.mp hx with hx | hx
            · exact hcsc x hx
            · rw [List.mem_singleton.mp hx]; exact ⟨hcls, hnl⟩
          · exact hwf2 e he
        · -- Directive candidate: pushed with its absorbed comments
          rw [pushOrMerge_push (by simpa using hni)] at h
          injection h with h
          subst h
          intro e he
          rcases List.mem_cons.mp he with rfl | he
          · rw [hec]
            exact WFEntry.dir cs_c l e0.entry_type e0.date [] hcsc hdl
              (by simp) (by simp)
          · exact hwf2 e he

theorem loop_wf {acc : List Entry} {n0 : Nat} {ls : List Str} {res : List Entry}
    (h : find_entries_loop acc n0 ls = .ok res)
    (hacc : ∀ e ∈ acc, WFEntry e) (hls : ∀ l ∈ ls, NoNl l) :
    ∀ e ∈ res, WFEntry e := by
  induction ls generalizing acc n0 with
  | nil => simp only [find_entries_loop, Except.ok.injEq] at h; subst h; exact hacc
  | cons x xs ih =>
    rw [find_entries_loop] at h
    cases hstep : stepLine acc (n0 + 1) x with
    | error err => rw [hstep] at h; simp at h
    | ok acc1 =>
      rw [hstep] at h
      simp only [ebind_ok] at h
      exact ih h (stepLine_wf hstep hacc (hls x (by simp)))
        (fun l hl => hls l (by simp [hl]))

/-- With skip count zero, every assembled entry is well-formed. -/
theorem find_entries_wf {lines : List Str} {es : List Entry}
    (h : find_entries lines 0 = .ok es) (hnl : ∀ l ∈ lines, NoNl l) :
    ∀ e ∈ es, WFEntry e := by
  rw [find_entries] at h
  simp only [Nat.not_lt_zero, if_false, List.take_zero, List.drop_zero,
    List.map_nil, List.reverse_nil] at h
  cases hloop : find_entries_loop [] 0 lines with
  | error err => rw [hloop] at h; simp at h
  | ok res =>
    rw [hloop] at h
    simp only [emap_ok, Except.ok.injEq] at h
    subst h
    intro e he
    exact loop_wf hloop (by simp) hnl e (List.mem_reverse.mp he)

@[simp] theorem loop_nil (acc : List Entry) (n0 : Nat) :
    find_entries_loop acc n0 [] = .ok acc := rfl

theorem loop_cons (acc : List Entry) (n0 : Nat) (l : Str) (ls : List Str) :
    find_entries_loop acc n0 (l :: ls) =
      (stepLine acc (n0 + 1) l).bind (fun a => find_entries_loop a (n0 + 1) ls) := rfl

/-! ### C2: replaying the rendered lines -/

theorem loop_comment_aux (cs : List Str) (hcs : ∀ l ∈ cs, ClassOk l .Comment)
    (pc : Str) (acc : List Entry) (n0 : Nat) :
    find_entries_loop (⟨pc, sentinel, .Comment⟩ :: acc) n0 cs =
      .ok (⟨appendLines pc cs, sentinel, .Comment⟩ :: acc) := by
  induction cs generalizing pc n0 with
  | nil => simp [find_entries_loop, appendLines]
  | cons c cs ih =>
    rw [find_entries_loop]
    have hstep : stepLine (⟨pc, sentinel, .Comment⟩ :: acc) (n0 + 1) c =
        .ok (⟨pc ++ '\n' :: c, sentinel, .Comment⟩ :: acc) := by
      rw [stepLine_eq (hcs c (by simp) (n0 + 1)) rfl,
        absorbComment_comment acc _ rfl, pushOrMerge_push (by simp)]
    rw [hstep]
    simp only [ebind_ok, ebindm_ok]
    exact ih (fun l hl => hcs l (by simp [hl])) (pc ++ '\n' :: c) (n0 + 1)

theorem loop_comment_run (cs : List Str) (hne : cs ≠ [])
    (hcs : ∀ l ∈ cs, ClassOk l .Comment)
    (acc : List Entry) (n0 : Nat) (hacc : HeadNC acc) :
    find_entries_loop acc n0 cs = .ok (⟨joinNl cs, sentinel, .Comment⟩ :: acc) := by
  cases cs with
  | nil => exact absurd rfl hne
  | cons c cs =>
    rw [find_entries_loop]
    have hstep : stepLine acc (n0 + 1) c = .ok (⟨c, sentinel, .Comment⟩ :: acc) := by
      rw [stepLine_eq (hcs c (by simp) (n0 + 1)) rfl, absorbComment_nc _ _ hacc,
        pushOrMerge_push (by simp)]
    rw [hstep]
    simp only [ebind_ok, ebindm_ok]
    rw [loop_comment_aux cs (fun l hl => hcs l (by simp [hl])) c acc (n0 + 1),
      joinNl_eq_appendLines]

/-- Successive appending of whole continuation blocks to a content string. -/
def blocksAppend (c : Str) (bs : List (List Str × Str)) : Str :=
  bs.foldl (fun c b => c ++ '\n' :: joinNl (blockLines b)) c

theorem blocksAppend_joinNl (bs : List (List Str × Str)) (X : List Str)
    (hX : X ≠ []) :
    blocksAppend (joinNl X) bs = joinNl (X ++ blocksLines bs) := by
  induction bs generalizing X with
  | nil => simp [blocksAppend, blocksLines]
  | cons b bs ih =>
    show blocksAppend (joinNl X ++ '\n' :: joinNl (blockLines b)) bs =
      joinNl (X ++ blocksLines (b :: bs))
    rw [← joinNl_append hX (blockLines_ne_nil b),
      ih (X ++ blockLines b) (by simp [hX])]
    congr 1
    show (X ++ blockLines b) ++ blocksLines bs = X ++ blocksLines (b :: bs)
    have : blocksLines (b :: bs) = blockLines b ++ blocksLines bs := by
      simp [blocksLines]
    rw [this, List.append_assoc]

theorem loop_block_run (bs : List (List Str × Str)) (hbs : ∀ b ∈ bs, BlockWF b)
    (p : Entry) (hp : p.entry_type = .Transaction ∨ p.entry_type = .Commodity)
    (acc : List Entry) (n0 : Nat) :
    find_entries_loop (p :: acc) n0 (blocksLines bs) =
      .ok (⟨blocksAppend p.content bs, p.date, p.entry_type⟩ :: acc) := by
  induction bs generalizing p n0 with
  | nil => simp [blocksLines, find_entries_loop, blocksAppend]
  | cons b bs ih =>
    obtain ⟨hbc, hbi, hbn⟩ := hbs b (by simp)
    have hhnc : HeadNC (p :: acc) := by
      show p.entry_type ≠ .Comment
      rcases hp with hp | hp <;> simp [hp]
    have hlines : blocksLines (b :: bs) = (b.1 ++ [b.2]) ++ blocksLines bs := by
      simp [blocksLines, blockLines]
    rw [hlines, loop_append]
    have hblock : find_entries_loop (p :: acc) n0 (b.1 ++ [b.2]) =
        .ok (⟨p.content ++ '\n' :: joinNl (blockLines b), p.date,
          p.entry_type⟩ :: acc) := by
      cases hb1 : b.1 with
      | nil =>
        simp only [List.nil_append]
        rw [find_entries_loop]
        have hstep : stepLine (p :: acc) (n0 + 1) b.2 =
            .ok (⟨p.content ++ '\n' :: b.2, p.date, p.entry_type⟩ :: acc) := by
          rw [stepLine_eq (hbi (n0 + 1)) rfl, absorbComment_nc _ _ hhnc]
          rcases hp with hp | hp <;> simp [pushOrMerge, hp]
        rw [hstep]
        simp [find_entries_loop, blockLines, hb1]
      | cons c1 cs1 =>
        rw [loop_append,
          loop_comment_run (c1 :: cs1) (by simp)
            (fun l hl => (hbc l (hb1 ▸ hl)).1) (p :: acc) n0 hhnc]
        simp only [ebind_ok, ebindm_ok]
        rw [find_entries_loop]
        have hstep : stepLine
            (⟨joinNl (c1 :: cs1), sentinel, .Comment⟩ :: p :: acc)
            (n0 + (c1 :: cs1).length + 1) b.2 =
            .ok (⟨p.content ++ '\n' :: joinNl (blockLines b), p.date,
              p.entry_type⟩ :: acc) := by
          rw [stepLine_eq (hbi (n0 + (c1 :: cs1).length + 1)) rfl,
            absorbComment_comment (p :: acc) _ rfl]
          have hmerge : pushOrMerge (p :: acc) (n0 + (c1 :: cs1).length + 1)
              ⟨joinNl (c1 :: cs1) ++ '\n' :: b.2, sentinel, .Indented⟩ =
              .ok (⟨p.content ++ '\n' :: (joinNl (c1 :: cs1) ++ '\n' :: b.2),
                p.date, p.entry_type⟩ :: acc) := by
            rcases hp with hp | hp <;> simp [pushOrMerge, hp]
          rw [hmerge]
          have hjoin : joinNl (c1 :: cs1) ++ '\n' :: b.2 = joinNl (blockLines b) := by
            rw [show blockLines b = (c1 :: cs1) ++ [b.2] from by rw [blockLines, hb1],
              joinNl_append (by simp) (by simp)]
            simp
          rw [hjoin]
        rw [hstep]
        rfl
    rw [hblock]
    simp only [ebind_ok, ebindm_ok]
    have hres := ih (fun b2 hb2 => hbs b2 (by simp [hb2]))
      ⟨p.content ++ '\n' :: joinNl (blockLines b), p.date, p.entry_type⟩
      (by simpa using hp) (n0 + (b.1 ++ [b.2]).length)
    rw [hres]
    rfl

/-- A directive line with its leading comment lines replays to the combined
entry on top of the accumulator. -/
theorem replay_dir_head (cs : List Str) (hc : CommentLines cs) (dl : Str)
    (t : EntryType) (d : Date) (hdl : DirLine dl t d)
    (acc : List Entry) (n0 : Nat) (hacc : HeadNC acc) :
    find_entries_loop acc n0 (cs ++ [dl]) =
      .ok (⟨joinNl (cs ++ [dl]), d, t⟩ :: acc) := by
  have hcand : ∃ lt, get_line_type dl 0 = .ok lt ∧
      mkCandidate dl lt = .ok (some ⟨dl, d, t⟩) := by
    rcases hdl.2 with ⟨hcls, ht, hd⟩ | ⟨hcls, hct⟩
    · subst ht; subst hd; exact ⟨.Option, hcls 0, rfl⟩
    · exact ⟨.Date d, hcls 0, by simp [mkCandidate, hct]⟩
  obtain ⟨lt, hlt, hmk⟩ := hcand
  have htne : t ≠ .Indented := (dirLine_kind hdl).2.2.1
  cases cs with
  | nil =>
    simp only [List.nil_append]
    rw [find_entries_loop,
      stepLine_eq (get_line_type_ok_irrel hlt (n0 + 1)) hmk,
      absorbComment_nc _ _ hacc, pushOrMerge_push (by simpa using htne)]
    simp [find_entries_loop]
  | cons c1 cs1 =>
    rw [loop_append,
      loop_comment_run (c1 :: cs1) (by simp) (fun l hl => (hc l hl).1) acc n0 hacc]
    simp only [ebind_ok, ebindm_ok]
    have hstep : stepLine (⟨joinNl (c1 :: cs1), sentinel, .Comment⟩ :: acc)
        (n0 + (c1 :: cs1).length + 1) dl =
        .ok (⟨joinNl (c1 :: cs1) ++ '\n' :: dl, d, t⟩ :: acc) := by
      rw [stepLine_eq (get_line_type_ok_irrel hlt _) hmk,
        absorbComment_comment acc _ rfl, pushOrMerge_push (by simpa using htne)]
    rw [loop_cons, hstep]
    simp only [ebindm_ok, loop_nil]
    rw [joinNl_append (show (c1 :: cs1 : List Str) ≠ [] by simp)
      (show ([dl] : List Str) ≠ [] by simp)]
    rfl

/-- Any well-formed non-comment entry replays from its own rendered lines to
itself, on top of any accumulator that does not end in a comment. -/
theorem replay_entry {e : Entry} (hwf : WFEntry e) (hnc : e.entry_type ≠ .Comment)
    (acc : List Entry) (n0 : Nat) (hacc : HeadNC acc) :
    find_entries_loop acc n0 (splitNl e.content) = .ok (e :: acc) := by
  cases hwf with
  | comment cs hne hcs => exact absurd rfl hnc
  | dir cs dl t d bs hc hdl hbs hmulti =>
    have hnlall : ∀ l ∈ cs ++ dl :: blocksLines bs, NoNl l := by
      intro l hl
      rcases List.mem_append.mp hl with hl | hl
      · exact (hc l hl).2
      rcases List.mem_cons.mp hl with rfl | hl
      · exact hdl.1
      · rw [blocksLines] at hl
        obtain ⟨L, hL, hlL⟩ := List.mem_flatten.mp hl
        obtain ⟨b, hb, rfl⟩ := List.mem_map.mp hL
        rcases List.mem_append.mp hlL with hlb | hlb
        · exact ((hbs b hb).1 l hlb).2
        · rw [List.mem_singleton.mp hlb]
          exact (hbs b hb).2.2
    show find_entries_loop acc n0 (splitNl (joinNl (cs ++ dl :: blocksLines bs))) =
      .ok (⟨joinNl (cs ++ dl :: blocksLines bs), d, t⟩ :: acc)
    rw [splitNl_joinNl (by simp) hnlall,
      show cs ++ dl :: blocksLines bs = (cs ++ [dl]) ++ blocksLines bs by simp,
      loop_append, replay_dir_head cs hc dl t d hdl acc n0 hacc]
    simp only [ebind_ok, ebindm_ok]
    cases hbs0 : bs with
    | nil => simp [blocksLines, find_entries_loop]
    | cons b bs' =>
      have hp : t = .Transaction ∨ t = .Commodity := hmulti (by simp [hbs0])
      have hrun := loop_block_run (b :: bs') (hbs0 ▸ hbs)
        ⟨joinNl (cs ++ [dl]), d, t⟩ (by simpa using hp) acc
        (n0 + (cs ++ [dl]).length)
      have hcontent : blocksAppend (joinNl (cs ++ [dl])) (b :: bs') =
          joinNl ((cs ++ [dl]) ++ blocksLines (b :: bs')) :=
        blocksAppend_joinNl (b :: bs') (cs ++ [dl]) (by simp)
      have hassoc : (cs ++ [dl]) ++ blocksLines (b :: bs') =
          cs ++ dl :: blocksLines (b :: bs') := by simp
      rw [hrun, hcontent, hassoc]

theorem loop_sections {ls : List Str} (h : ∀ l ∈ ls, ClassOk l .Section)
    (acc : List Entry) (n0 : Nat) : find_entries_loop acc n0 ls = .ok acc := by
  induction ls generalizing acc n0 with
  | nil => rfl
  | cons x xs ih =>
    rw [loop_cons, stepLine_none (h x (by simp) (n0 + 1)) rfl]
    simp only [ebindm_ok]
    exact ih (fun l hl => h l (by simp [hl])) acc (n0 + 1)

/-- The three decorative lines of a section heading are all dropped as
Section lines when read back. -/
theorem heading_replay (s : Str) (hs : NoNl s) (acc : List Entry) (n0 : Nat) :
    find_entries_loop acc n0 (splitNl (sectionHeading s)) = .ok acc := by
  have hl1 : (';' :: (deco ++ List.replicate s.length '€' ++ deco) : Str) =
      sectionMarker ++ (List.replicate s.length '€' ++ deco) := by
    simp [sectionMarker, deco]
  have hl2 : (';' :: (deco ++ s ++ deco) : Str) = sectionMarker ++ (s ++ deco) := by
    simp [sectionMarker, deco]
  have hnl1 : NoNl (';' :: (deco ++ List.replicate s.length '€' ++ deco)) := by
    intro hmem
    simp [deco, List.mem_replicate] at hmem
  have hnl2 : NoNl (';' :: (deco ++ s ++ deco)) := by
    intro hmem
    simp [deco, List.mem_replicate] at hmem
    exact hs hmem
  have hform : sectionHeading s =
      (';' :: (deco ++ List.replicate s.length '€' ++ deco)) ++ '\n' ::
      ((';' :: (deco ++ s ++ deco)) ++ '\n' ::
       (';' :: (deco ++ List.replicate s.length '€' ++ deco))) := by
    simp [sectionHeading, List.append_assoc]
  have hsplit : splitNl (sectionHeading s) =
      [';' :: (deco ++ List.replicate s.length '€' ++ deco),
       ';' :: (deco ++ s ++ deco),
       ';' :: (deco ++ List.replicate s.length '€' ++ deco)] := by
    rw [hform, splitNl_append_cons _ hnl1, splitNl_append_cons _ hnl2,
      splitNl_of_noNl hnl1]
  rw [hsplit]
  refine loop_sections ?_ acc n0
  intro l hl
  simp only [List.mem_cons, List.not_mem_nil, or_false] at hl
  intro n
  rcases hl with rfl | rfl | rfl
  · rw [hl1]; exact marker_line_section _ n
  · rw [hl2]; exact marker_line_section _ n
  · rw [hl1]; exact marker_line_section _ n

/-- Replaying the rendered lines of a list of non-comment well-formed entries
re-assembles exactly those entries. -/
theorem loop_entries (es : List Entry)
    (hes : ∀ e ∈ es, WFEntry e ∧ e.entry_type ≠ .Comment)
    (acc : List Entry) (n0 : Nat) (hacc : ∀ e ∈ acc, e.entry_type ≠ .Comment) :
    find_entries_loop acc n0 (render es) = .ok (es.reverse ++ acc) := by
  induction es generalizing acc n0 with
  | nil => simp [render_nil]
  | cons e es ih =>
    rw [render_cons, loop_append]
    have hhnc : HeadNC acc := by
      cases acc with
      | nil => trivial
      | cons a rest => exact hacc a (by simp)
    rw [replay_entry (hes e (by simp)).1 (hes e (by simp)).2 acc n0 hhnc]
    simp only [ebindm_ok]
    have hacc2 : ∀ x ∈ e :: acc, x.entry_type ≠ .Comment := by
      intro x hx
      rcases List.mem_cons.mp hx with rfl | hx
      · exact (hes _ (List.mem_cons_self _ _)).2
      · exact hacc x hx
    rw [ih (fun x hx => hes x (by simp [hx])) (e :: acc) _ hacc2]
    simp

/-- Replaying the rendered lines of heading-plus-bucket blocks drops every
heading and re-assembles the bucket entries in order. -/
theorem loop_render_blocks (pairs : List (Str × List Entry)) (acc : List Entry)
    (n0 : Nat)
    (hp : ∀ p ∈ pairs, NoNl p.1 ∧ ∀ e ∈ p.2, WFEntry e ∧ e.entry_type ≠ .Comment)
    (hacc : ∀ e ∈ acc, e.entry_type ≠ .Comment) :
    find_entries_loop acc n0
      (render ((pairs.map (fun p => sectionEntry p.1 :: p.2)).flatten)) =
      .ok ((pairs.map (fun p => p.2)).flatten.reverse ++ acc) := by
  induction pairs generalizing acc n0 with
  | nil => simp [render_nil]
  | cons p ps ih =>
    have hsplitmap : ((p :: ps).map (fun p => sectionEntry p.1 :: p.2)).flatten =
        (sectionEntry p.1 :: p.2) ++
          ((ps.map (fun p => sectionEntry p.1 :: p.2)).flatten) := by
      simp
    have hfirst : find_entries_loop acc n0 (render (sectionEntry p.1 :: p.2)) =
        .ok (p.2.reverse ++ acc) := by
      rw [render_cons, loop_append,
        show (sectionEntry p.1).content = sectionHeading p.1 from rfl,
        heading_replay p.1 (hp p (by simp)).1 acc n0]
      simp only [ebindm_ok]
      exact loop_entries p.2 (fun e he => (hp p (by simp)).2 e he) acc _ hacc
    have hacc2 : ∀ x ∈ p.2.reverse ++ acc, x.entry_type ≠ .Comment := by
      intro x hx
      rcases List.mem_append.mp hx with hx | hx
      · exact ((hp p (by simp)).2 x (List.mem_reverse.mp hx)).2
      · exact hacc x hx
    rw [hsplitmap, render_append, loop_append, hfirst]
    simp only [ebindm_ok]
    rw [ih (p.2.reverse ++ acc) _ (fun q hq => hp q (by simp [hq])) hacc2]
    congr 1
    simp [List.reverse_append, List.append_assoc]

theorem find_entries_zero (L : List Str) :
    find_entries L 0 = (find_entries_loop [] 0 L).map List.reverse := by
  rw [find_entries]
  simp

/-- C2: The full pipeline (assemble with skip count zero, then sort) is
idempotent: feeding the rendered sorted output back through the pipeline with
skip count zero reproduces the first run's output exactly. -/
theorem pipeline_idempotent (lines : List Str) (hnl : ∀ l ∈ lines, NoNl l)
    (out : List Entry) (h : pipeline lines 0 = .ok out) :
    pipeline (render out) 0 = .ok out := by
  rw [pipeline] at h
  cases hfe : find_entries lines 0 with
  | error err => rw [hfe] at h; simp at h
  | ok es =>
    rw [hfe] at h
    simp only [ebindm_ok] at h
    rw [sort_entries_eq] at h
    have hout : sorterOut (sortByDate es) = out := by injection h
    subst hout
    have hwf : ∀ e ∈ es, WFEntry e := find_entries_wf hfe hnl
    have hmemS : ∀ e ∈ sortByDate es, WFEntry e := fun e he =>
      hwf e ((sortByDate_perm es).mem_iff.mp he)
    have hHeader : kindFilter .Header (sortByDate es) = [] := by
      rw [kindFilter, List.filter_eq_nil_iff]
      intro e he
      simp only [decide_eq_true_eq]
      exact fun hh => (wfEntry_kind (hmemS e he)).2.2 hh
    have hbucket : ∀ k : EntryType, k ≠ .Comment →
        ∀ e ∈ kindFilter k (sortByDate es), WFEntry e ∧ e.entry_type ≠ .Comment := by
      intro k hk e he
      exact ⟨hmemS e (List.mem_of_mem_filter he),
        by rw [kindFilter_mem_type he]; exact hk⟩
    have hflat : sorterOut (sortByDate es) =
        (([("Options".data, kindFilter .Option (sortByDate es)),
           ("Accounts".data, kindFilter .Account (sortByDate es)),
           ("Commodities".data, kindFilter .Commodity (sortByDate es)),
           ("Other Entries".data, kindFilter .OtherEntry (sortByDate es)),
           ("Prices".data, kindFilter .Price (sortByDate es)),
           ("Transactions".data, kindFilter .Transaction (sortByDate es))].map
            (fun p => sectionEntry p.1 :: p.2)).flatten) := by
      rw [sorterOut, hHeader]
      simp
    have hpairs : ∀ p ∈
        [("Options".data, kindFilter .Option (sortByDate es)),
         ("Accounts".data, kindFilter .Account (sortByDate es)),
         ("Commodities".data, kindFilter .Commodity (sortByDate es)),
         ("Other Entries".data, kindFilter .OtherEntry (sortByDate es)),
         ("Prices".data, kindFilter .Price (sortByDate es)),
         ("Transactions".data, kindFilter .Transaction (sortByDate es))],
        NoNl p.1 ∧ ∀ e ∈ p.2, WFEntry e ∧ e.entry_type ≠ .Comment := by
      intro p hp
      fin_cases hp <;> refine ⟨?_, hbucket _ (by simp)⟩ <;>
        first
          | exact (by decide : NoNl ("Options".data))
          | exact (by decide : NoNl ("Accounts".data))
          | exact (by decide : NoNl ("Commodities".data))
          | exact (by decide : NoNl ("Other Entries".data))
          | exact (by decide : NoNl ("Prices".data))
          | exact (by decide : NoNl ("Transactions".data))
    have hrep := loop_render_blocks
      [("Options".data, kindFilter .Option (sortByDate es)),
       ("Accounts".data, kindFilter .Account (sortByDate es)),
       ("Commodities".data, kindFilter .Commodity (sortByDate es)),
       ("Other Entries".data, kindFilter .OtherEntry (sortByDate es)),
       ("Prices".data, kindFilter .Price (sortByDate es)),
       ("Transactions".data, kindFilter .Transaction (sortByDate es))]
      [] 0 hpairs (by simp)
    have hbody : find_entries (render (sorterOut (sortByDate es))) 0 =
        .ok (kindFilter .Option (sortByDate es) ++
          (kindFilter .Account (sortByDate es) ++
          (kindFilter .Commodity (sortByDate es) ++
          (kindFilter .OtherEntry (sortByDate es) ++
          (kindFilter .Price (sortByDate es) ++
           kindFilter .Transaction (sortByDate es)))))) := by
      rw [find_entries_zero, hflat, hrep]
      simp [List.append_assoc]
    rw [pipeline, hbody]
    simp only [ebindm_ok]
    rw [sort_entries_eq]
    have hsorted : ∀ k : EntryType,
        sortByDate (kindFilter k (sortByDate es)) = kindFilter k (sortByDate es) :=
      fun k => sortByDate_of_pairwise
        ((sortByDate_pairwise es).sublist (List.filter_sublist _))
    have hfilterbody : ∀ k ∈ sevenKinds,
        kindFilter k (kindFilter .Option (sortByDate es) ++
          (kindFilter .Account (sortByDate es) ++
          (kindFilter .Commodity (sortByDate es) ++
          (kindFilter .OtherEntry (sortByDate es) ++
          (kindFilter .Price (sortByDate es) ++
           kindFilter .Transaction (sortByDate es)))))) =
        kindFilter k (sortByDate es) := by
      intro k hk
      fin_cases hk <;>
        simp [kindFilter_append, kindFilter_self, kindFilter_ne, hHeader]
    have hk2 : ∀ k ∈ sevenKinds,
        kindFilter k (sortByDate (kindFilter .Option (sortByDate es) ++
          (kindFilter .Account (sortByDate es) ++
          (kindFilter .Commodity (sortByDate es) ++
          (kindFilter .OtherEntry (sortByDate es) ++
          (kindFilter .Price (sortByDate es) ++
           kindFilter .Transaction (sortByDate es))))))) =
        kindFilter k (sortByDate es) := by
      intro k hk
      rw [kindFilter, sortByDate_filter]
      rw [show List.filter (fun e => decide (e.entry_type = k))
          (kindFilter .Option (sortByDate es) ++
            (kindFilter .Account (sortByDate es) ++
            (kindFilter .Commodity (sortByDate es) ++
            (kindFilter .OtherEntry (sortByDate es) ++
            (kindFilter .Price (sortByDate es) ++
             kindFilter .Transaction (sortByDate es)))))) =
          kindFilter k (kindFilter .Option (sortByDate es) ++
            (kindFilter .Account (sortByDate es) ++
            (kindFilter .Commodity (sortByDate es) ++
            (kindFilter .OtherEntry (sortByDate es) ++
            (kindFilter .Price (sortByDate es) ++
             kindFilter .Transaction (sortByDate es)))))) from rfl]
      rw [hfilterbody k hk, hsorted k]
    congr 1
    rw [sorterOut, sorterOut,
      hk2 .Header (by simp [sevenKinds]), hk2 .Option (by simp [sevenKinds]),
      hk2 .Account (by simp [sevenKinds]), hk2 .Commodity (by simp [sevenKinds]),
      hk2 .OtherEntry (by simp [sevenKinds]), hk2 .Price (by simp [sevenKinds]),
      hk2 .Transaction (by simp [sevenKinds])]

/-- Witness for C2: a file with a comment-headed multi-line transaction and an
option line sorts to a fixed point of the pipeline. -/
theorem pipeline_idempotent_witness :
    pipeline ["; c".data, "2021-01-01 * t".data, "  leg".data, "option a".data] 0 =
      .ok [sectionEntry "Options".data,
           ⟨"option a".data, sentinel, .Option⟩,
           sectionEntry "Accounts".data,
           sectionEntry "Commodities".data,
           sectionEntry "Other Entries".data,
           sectionEntry "Prices".data,
           sectionEntry "Transactions".data,
           ⟨"; c\n2021-01-01 * t\n  leg".data, ⟨2021, 1, 1⟩, .Transaction⟩] ∧
    pipeline (render
      [sectionEntry "Options".data,
       ⟨"option a".data, sentinel, .Option⟩,
       sectionEntry "Accounts".data,
       sectionEntry "Commodities".data,
       sectionEntry "Other Entries".data,
       sectionEntry "Prices".data,
       sectionEntry "Transactions".data,
       ⟨"; c\n2021-01-01 * t\n  leg".data, ⟨2021, 1, 1⟩, .Transaction⟩]) 0 =
      .ok [sectionEntry "Options".data,
           ⟨"option a".data, sentinel, .Option⟩,
           sectionEntry "Accounts".data,
           sectionEntry "Commodities".data,
           sectionEntry "Other Entries".data,
           sectionEntry "Prices".data,
           sectionEntry "Transactions".data,
           ⟨"; c\n2021-01-01 * t\n  leg".data, ⟨2021, 1, 1⟩, .Transaction⟩] := by
  have h1 : pipeline ["; c".data, "2021-01-01 * t".data, "  leg".data,
      "option a".data] 0 =
      .ok [sectionEntry "Options".data,
           ⟨"option a".data, sentinel, .Option⟩,
           sectionEntry "Accounts".data,
           sectionEntry "Commodities".data,
           sectionEntry "Other Entries".data,
           sectionEntry "Prices".data,
           sectionEntry "Transactions".data,
           ⟨"; c\n2021-01-01 * t\n  leg".data, ⟨2021, 1, 1⟩, .Transaction⟩] := by
    decide
  exact ⟨h1, pipeline_idempotent _ (by decide) _ h1⟩

end BeancountSort
